import Mathlib

/-!
Verification of the AutoVO line-resolution / deduplication / classification /
synthesis-scheduling pipeline (`build_autovo.py`).

The Python source is shallowly embedded: pure text functions become Lean
functions over `String` / `List Char`; the interactive prompts, the
filesystem and the external synthesis service are modelled as explicit
oracle parameters, exactly as the spec describes them ("a pluggable
decision callback", "a black-box batch function").  Machine integers are
`Nat`/`Int`; Python `int(x)` truncation toward zero on a nonnegative-
denominator quotient is `truncDiv`; the floating-point multiplications in
`apply_fade_in_out` are modelled as exact rational arithmetic followed by
truncation toward zero, which is the standard idealisation of
`int(sample * (i / n))`.
-/

namespace AutoVO

/-! ## Global configuration constants (from the GLOBAL FLAGS / STATIC CONFIG
sections of `build_autovo.py`). -/

def SEED_GROUP_SIZE : Nat := 20

def INFERENCE_STEPS : Nat := 15

def FADE_IN_MS : Nat := 10

def FADE_OUT_MS : Nat := 10

def ASK_ON_EXISTING : Bool := true

/-! ## Python whitespace and basic string helpers -/

/-- The characters matched by Python `\s` (ASCII range) and stripped by
`str.strip()`. -/
def isPySpace (c : Char) : Bool :=
  c = ' ' || c = '\t' || c = '\n' || c = '\r' || c = '\x0b' || c = '\x0c'

/-- `text.replace("\r\n", "\n")` from `normalize_text_for_match`. -/
def replaceCRLF : List Char → List Char
  | [] => []
  | '\r' :: '\n' :: rest => '\n' :: replaceCRLF rest
  | c :: rest => c :: replaceCRLF rest

/-- `re.sub(r"\s+", " ", t)`: collapse each maximal whitespace run to one
space.  The boolean records whether the previous character was whitespace. -/
def collapseWsGo : Bool → List Char → List Char
  | _, [] => []
  | prevSpace, c :: rest =>
    if isPySpace c then
      if prevSpace then collapseWsGo true rest
      else ' ' :: collapseWsGo true rest
    else c :: collapseWsGo false rest

/-- Python `str.strip()` on a character list. -/
def stripChars (l : List Char) : List Char :=
  ((l.dropWhile isPySpace).reverse.dropWhile isPySpace).reverse

/-- `normalize_text_for_match` from the source: CRLF to LF, collapse
whitespace runs, strip. -/
def normalize_text_for_match (s : String) : String :=
  String.mk (stripChars (collapseWsGo false (replaceCRLF s.data)))

/-- Truthiness of `seg_text.strip()`: some non-whitespace character. -/
def hasNonWs (l : List Char) : Bool :=
  l.any (fun c => !isPySpace c)

/-! ## Quote-state segmentation (`split_narrator_and_dialog`) -/

inductive Role where
  | narrator
  | character
deriving DecidableEq, Repr

/-- The role active before a toggle: inside quotes is `character`. -/
def roleOf (in_quote : Bool) : Role :=
  if in_quote then Role.character else Role.narrator

/-- The left-to-right scan of `split_narrator_and_dialog`: on `"` emit the
accumulated span (when it strips non-empty) tagged with the role active
before the toggle, then flip the in-quote flag; at the end emit the residual
accumulation. -/
def splitGo : List Char → List Char → Bool → List (Role × String)
  | [], current, in_quote =>
    if hasNonWs current then [(roleOf in_quote, String.mk current)] else []
  | c :: rest, current, in_quote =>
    if c = '"' then
      (if hasNonWs current then [(roleOf in_quote, String.mk current)] else [])
        ++ splitGo rest [] (!in_quote)
    else
      splitGo rest (current ++ [c]) in_quote

/-- `split_narrator_and_dialog` from the source. -/
def split_narrator_and_dialog (full_text : String) : List (Role × String) :=
  splitGo full_text.data [] false

/-! ## Line records and classification -/

/-- The per-line dict built by `build_lines` (plus the optional keys set
later by `targeted_regen_by_word` and `build_chunks_for_regen`; a Python
dict missing those keys reads them as `None` via `.get`, hence `Option`
fields defaulting to `none`). -/
structure Line where
  tra_id : Option Nat
  strref : Nat
  text : String
  tts_text : String
  resref : String
  cfg_override : Option Rat := none
  steps_override : Option Nat := none
  seed_key : Option String := none
deriving DecidableEq, Repr

/-- `any(role == r and seg.strip() for role, seg in segments)`. -/
def segHasRole (segments : List (Role × String)) (r : Role) : Bool :=
  segments.any (fun p => decide (p.1 = r) && hasNonWs p.2.data)

inductive LineCat where
  | narrOnly
  | charOnly
  | mixed
deriving DecidableEq, Repr

/-- The branch structure of the loop body of `classify_narrator_only_lines`. -/
def classifyLine (line : Line) : LineCat :=
  let segments := split_narrator_and_dialog line.text
  if segments = [] then LineCat.charOnly
  else
    let has_narr := segHasRole segments Role.narrator
    let has_char := segHasRole segments Role.character
    if has_narr && !has_char then LineCat.narrOnly
    else if has_char && !has_narr then LineCat.charOnly
    else if has_narr && has_char then LineCat.mixed
    else LineCat.charOnly

/-- `classify_narrator_only_lines`: the loop appends each line, in input
order, to exactly the list selected by `classifyLine`, which is the
order-preserving filter of each category. -/
def classify_narrator_only_lines (regen_lines : List Line) :
    List Line × List Line × List Line :=
  (regen_lines.filter (fun l => decide (classifyLine l = LineCat.narrOnly)),
   regen_lines.filter (fun l => decide (classifyLine l = LineCat.charOnly)),
   regen_lines.filter (fun l => decide (classifyLine l = LineCat.mixed)))

/-! ## Edge fades (`apply_fade_in_out`)

The WAV file is modelled by its `wave` header fields plus the decoded
16-bit sample array (`array.array("h")`), one `Int` per sample, channel-
interleaved: sample index `idx` belongs to frame `idx / nchannels`. -/

structure WavParams where
  nchannels : Nat
  sampwidth : Nat
  framerate : Nat
  nframes : Nat
  comptype : String
  compname : String
deriving DecidableEq, Repr

structure WavFile where
  params : WavParams
  samples : List Int
deriving DecidableEq, Repr

/-- Python `int(x)` on an exact quotient `a / n`: truncation toward zero. -/
def truncDiv (a : Int) (n : Nat) : Int :=
  if 0 ≤ a then ((a.toNat / n : Nat) : Int)
  else -(((-a).toNat / n : Nat) : Int)

/-- Index-aware map used to express the two in-place sample loops. -/
def mapWithIndex (f : Nat → Int → Int) : Nat → List Int → List Int
  | _, [] => []
  | i, s :: rest => f i s :: mapWithIndex f (i + 1) rest

/-- Per-sample effect of the fade-in loop: for `i in range(fade_in_frames)`
and each channel `c`, `samples[i*nch+c] = int(samples[i*nch+c] *
(i / fade_in_frames))`; the sample at index `idx` is touched iff its frame
`idx / nch` is below `fin` (and `nch` is positive — with zero channels the
loop body never runs). -/
def fadeInSample (fin nch idx : Nat) (s : Int) : Int :=
  if nch ≠ 0 && decide (idx / nch < fin) then truncDiv (s * (idx / nch : Nat)) fin
  else s

/-- Per-sample effect of the fade-out loop: frame `f = total - fout + i`
gets factor `(fout - i) / fout = (total - f) / fout`. -/
def fadeOutSample (fout total nch idx : Nat) (s : Int) : Int :=
  if nch ≠ 0 && decide (total - fout ≤ idx / nch) && decide (idx / nch < total) then
    truncDiv (s * ((total - idx / nch : Nat) : Int)) fout
  else s

def applyFadeIn (fin nch : Nat) (samples : List Int) : List Int :=
  mapWithIndex (fadeInSample fin nch) 0 samples

def applyFadeOut (fout total nch : Nat) (samples : List Int) : List Int :=
  mapWithIndex (fadeOutSample fout total nch) 0 samples

/-- Effective fade-in window after the half-length clamp
(`if fade_in_frames > half: fade_in_frames = half`). -/
def effFadeFrames (framerate fade_ms total : Nat) : Nat :=
  min (framerate * fade_ms / 1000) (total / 2)

/-- `apply_fade_in_out` from the source (the missing-file early return is
not modelled: the caller always passes a just-written file).  Unsupported
formats and empty clips are left untouched. -/
def apply_fade_in_out (fade_in_ms fade_out_ms : Nat) (w : WavFile) : WavFile :=
  if fade_in_ms = 0 ∧ fade_out_ms = 0 then w
  else if ¬ (w.params.sampwidth = 2 ∧ w.params.comptype = "NONE") then w
  else if w.params.nframes = 0 then w
  else
    let total := w.params.nframes
    let fin := effFadeFrames w.params.framerate fade_in_ms total
    let fout := effFadeFrames w.params.framerate fade_out_ms total
    { w with
      samples := applyFadeOut fout total w.params.nchannels
        (applyFadeIn fin w.params.nchannels w.samples) }

/-! ## Seeds and batch chunking (`build_chunks_for_regen`) -/

structure Seed where
  key : String
  wav : String
  text : String
deriving DecidableEq, Repr

/-- Chunk grouping key: `(seed_key, cfg_value, steps_value)`.  The Python
cfg value is a float; it is modelled as an exact rational. -/
abbrev ChunkKey := String × Rat × Nat

/-- `chunks.setdefault`-style append on an insertion-ordered dict. -/
def assocAppend (chunks : List (ChunkKey × List Line)) (k : ChunkKey) (l : Line) :
    List (ChunkKey × List Line) :=
  if chunks.any (fun p => decide (p.1 = k)) then
    chunks.map (fun p => if p.1 = k then (p.1, p.2 ++ [l]) else p)
  else chunks ++ [(k, [l])]

/-- The `for idx, line in enumerate(regen_lines)` loop of
`build_chunks_for_regen`.  `rng idx` models the fresh
`random.uniform(CFG_MIN, CFG_MAX)` draw used when the line carries no
`cfg_override`.  Returns the lines annotated with their assigned
`seed_key` (the in-place `line["seed_key"] = seed_key` mutation) together
with the chunk dict. -/
def buildChunksGo (rng : Nat → Rat) (keys : List String) :
    Nat → List Line → List Line → List (ChunkKey × List Line) →
    List Line × List (ChunkKey × List Line)
  | _, [], acc, chunks => (acc, chunks)
  | idx, line :: rest, acc, chunks =>
    let seed_key := keys.getD (idx / SEED_GROUP_SIZE % keys.length) ""
    let line1 := { line with seed_key := some seed_key }
    let cfg_value := line.cfg_override.getD (rng idx)
    let steps_value := line.steps_override.getD INFERENCE_STEPS
    buildChunksGo rng keys (idx + 1) rest (acc ++ [line1])
      (assocAppend chunks (seed_key, cfg_value, steps_value) line1)

/-- `build_chunks_for_regen`: `none` models the `SystemExit` raised when the
seed bank is empty; an empty pending list returns the empty dict at once. -/
def build_chunks_for_regen (rng : Nat → Rat) (seeds : List Seed)
    (regen_lines : List Line) :
    Option (List Line × List (ChunkKey × List Line)) :=
  if regen_lines = [] then some ([], [])
  else
    let keys := seeds.map Seed.key
    if keys = [] then none
    else some (buildChunksGo rng keys 0 regen_lines [] [])

/-- The seed-key annotation performed by the chunking loop, as a function
of a line's index: index `i` draws key number
`(i / SEED_GROUP_SIZE) % len(keys)`. -/
def annotateSeeds (keys : List String) : Nat → List Line → List Line
  | _, [] => []
  | i, l :: rest =>
    { l with seed_key := some (keys.getD (i / SEED_GROUP_SIZE % keys.length) "") } ::
      annotateSeeds keys (i + 1) rest

/-- Default line record (for `getD` statements). -/
def defaultLine : Line :=
  { tra_id := none, strref := 0, text := "", tts_text := "", resref := "" }

/-! ## Batch submission (`run_voxcpm_batch`)

The external VoxCPM call is the spec's black-box batch function, modelled
by the oracle `synth`, which for a chunk key and the chunk's texts returns
the lexicographically sorted list of wav files found in the temp directory
after the call.  The run state is the list of files already moved into the
sounds directory (`SOUNDS_DIR / f"{resref}.wav"`); `Except.error` models
the `SystemExit` abort and carries that state at abort time. -/

structure BatchEnv where
  synth : ChunkKey → List String → List String

def soundsTarget (l : Line) : String := l.resref ++ ".wav"

/-- `run_voxcpm_batch`: per chunk, clear the temp dir, invoke synthesis,
compare output and input counts, and only then move the chunk's files into
the sounds dir. -/
def run_voxcpm_batch (env : BatchEnv) :
    List (ChunkKey × List Line) → List String → Except (List String) (List String)
  | [], moved => Except.ok moved
  | (k, chunk) :: rest, moved =>
    let wavs := env.synth k (chunk.map Line.tts_text)
    if wavs.length ≠ chunk.length then Except.error moved
    else run_voxcpm_batch env rest (moved ++ chunk.map soundsTarget)

/-! ## Regeneration planning (`plan_generation`)

The interactive prompts are the spec's pluggable decision callback:
`keepAllAnswerYes` is the answer to the one-time global question,
`lineAnswer i` the per-line answer for the line at position `i` in the
input list, and `hasWav` the `wav_path.is_file()` check on the line's
resref. -/

inductive PlanAnswer where
  | keep
  | regen
  | skip
deriving DecidableEq, Repr

structure PlanEnv where
  soundsDirExists : Bool
  hasWav : String → Bool
  keepAllAnswerYes : Bool
  lineAnswer : Nat → PlanAnswer

structure PlanState where
  keep : List Line
  regen : List Line
  globalKeepAll : Bool
  skipInteractive : Bool
  askedGlobal : Bool
deriving Repr

/-- One iteration of the `for line in lines` loop of `plan_generation`. -/
def planStep (env : PlanEnv) (idx : Nat) (line : Line) (st : PlanState) : PlanState :=
  if env.hasWav line.resref then
    if !ASK_ON_EXISTING then { st with keep := st.keep ++ [line] }
    else
      let st1 :=
        if !st.askedGlobal then
          if env.keepAllAnswerYes then
            { st with askedGlobal := true, skipInteractive := true, globalKeepAll := true }
          else
            { st with askedGlobal := true, skipInteractive := false }
        else st
      if st1.skipInteractive then { st1 with keep := st1.keep ++ [line] }
      else
        match env.lineAnswer idx with
        | PlanAnswer.keep => { st1 with keep := st1.keep ++ [line] }
        | PlanAnswer.skip => st1
        | PlanAnswer.regen => { st1 with regen := st1.regen ++ [line] }
  else { st with regen := st.regen ++ [line] }

def planLoop (env : PlanEnv) : Nat → List Line → PlanState → PlanState
  | _, [], st => st
  | idx, line :: rest, st => planLoop env (idx + 1) rest (planStep env idx line st)

/-- `plan_generation`: with no sounds dir every line regenerates; otherwise
run the prompting loop. -/
def plan_generation (env : PlanEnv) (lines : List Line) :
    List Line × List Line × Bool :=
  if !env.soundsDirExists then ([], lines, false)
  else
    let st := planLoop env 0 lines
      { keep := [], regen := [], globalKeepAll := false,
        skipInteractive := false, askedGlobal := false }
    (st.keep, st.regen, st.globalKeepAll)

/-! ## Substring-targeted regeneration (`targeted_regen_by_word`) -/

/-- Python `needle in hay` (substring containment). -/
def startsWithChars : List Char → List Char → Bool
  | _, [] => true
  | [], _ :: _ => false
  | h :: t, n :: ns => h = n && startsWithChars t ns

def containsSub : List Char → List Char → Bool
  | [], needle => needle.isEmpty
  | h :: t, needle => startsWithChars (h :: t) needle || containsSub t needle

/-- `s.lower()` (ASCII). -/
def lowerChars (s : String) : List Char := s.data.map Char.toLower

/-- `needle in line["text"].lower()` where `needle = s.lower()`. -/
def lineMatches (needleLower : List Char) (l : Line) : Bool :=
  containsSub (lowerChars l.text) needleLower

/-- The matching loop of one search: append matches to `regen_lines` (when
not already there), remove them from `keep_lines` (`list.remove`: first
occurrence), and collect the matched lines in order. -/
def targetedMatchLoop (needleLower : List Char) :
    List Line → List Line → List Line → List Line × List Line × List Line
  | [], keep, regen => ([], keep, regen)
  | l :: rest, keep, regen =>
    if lineMatches needleLower l then
      let regen1 := if l ∈ regen then regen else regen ++ [l]
      let keep1 := if l ∈ keep then keep.erase l else keep
      let (m, k, r) := targetedMatchLoop needleLower rest keep1 regen1
      (l :: m, k, r)
    else
      targetedMatchLoop needleLower rest keep regen

/-- One operator search: the non-blank substring plus the (already parsed,
invalid input having fallen back to `none` with a warning) static CFG and
steps overrides offered for the matched lines. -/
structure SearchSpec where
  needle : String
  cfgOverride : Option Rat
  stepsOverride : Option Nat
deriving Repr

/-- `line["cfg_override"] = v` / `line["steps_override"] = v`. -/
def applyOverrides (cfgO : Option Rat) (stepsO : Option Nat) (l : Line) : Line :=
  let l1 := match cfgO with
    | some v => { l with cfg_override := some v }
    | none => l
  match stepsO with
  | some v => { l1 with steps_override := some v }
  | none => l1

/-- One pass of the outer `while True` loop for one entered substring.  The
override mutation hits the matched line objects, which are shared between
`lines`, `keep_lines` and `regen_lines`, so all three lists are updated
consistently (the update is keyed on membership in `matched`, which
coincides with object identity whenever the input lines are pairwise
distinct records, as they are after the run's strref dedup). -/
def targetedApplySearch (sp : SearchSpec) (lines keep regen : List Line) :
    List Line × List Line × List Line :=
  let (matched, keep1, regen1) :=
    targetedMatchLoop (lowerChars sp.needle) lines keep regen
  if matched = [] ∨ (sp.cfgOverride = none ∧ sp.stepsOverride = none) then
    (lines, keep1, regen1)
  else
    let upd := fun l =>
      if l ∈ matched then applyOverrides sp.cfgOverride sp.stepsOverride l else l
    (lines.map upd, keep1.map upd, regen1.map upd)

def targetedRegenGo : List SearchSpec → List Line → List Line → List Line →
    List Line × List Line × List Line
  | [], lines, keep, regen => (lines, keep, regen)
  | sp :: rest, lines, keep, regen =>
    let (l1, k1, r1) := targetedApplySearch sp lines keep regen
    targetedRegenGo rest l1 k1 r1

/-- `targeted_regen_by_word`: the searches the operator performs before
answering proceed (a blank entry, or the proceed answer, ends the loop; the
effect on the three lists is exactly the fold over the performed
searches). -/
def targeted_regen_by_word (searches : List SearchSpec)
    (lines keep regen : List Line) : List Line × List Line × List Line :=
  if lines = [] then (lines, keep, regen)
  else targetedRegenGo searches lines keep regen

/-! ## Global TLK table and duplicate propagation (`parse_tlk_tra`,
`expand_duplicates`)

The traified TLK dump is the ordered list of `@strref = ~text~` entries.
`parse_tlk_tra` builds `strref_to_text` by dict assignment (later entries
overwrite) and `textkey_to_strrefs` by appending each entry's strref under
its normalized-text key (in entry order). -/

/-- `strref_to_text.get(sr)`: the last entry for `sr`, if any. -/
def tlkLookup (entries : List (Nat × String)) (sr : Nat) : Option String :=
  (entries.reverse.find? (fun e => decide (e.1 = sr))).map Prod.snd

/-- `textkey_to_strrefs.get(key, [])`: the strrefs of all entries whose text
normalizes to `key`, in entry order. -/
def tlkIndex (entries : List (Nat × String)) (key : String) : List Nat :=
  (entries.filter (fun e => decide (normalize_text_for_match e.2 = key))).map Prod.fst

/-- The existing-audio oracle `get_soundref_for_strref` (WeiDU lookup plus
the run-lifetime cache). -/
structure DupEnv where
  entries : List (Nat × String)
  soundref : Nat → Option String

/-- The clone dict literal of `expand_duplicates`: the duplicate's own
strref and raw text, the matched line's synthesis text and asset name. -/
def cloneOf (line : Line) (sr : Nat) (dup_text : String) : Line :=
  { tra_id := none, strref := sr, text := dup_text,
    tts_text := line.tts_text, resref := line.resref }

/-- The `for sr in dup_refs` inner loop: skip strrefs already claimed
(`by_strref`, here the `seen` list) or carrying an existing soundref;
otherwise append a clone and claim the strref. -/
def expandInner (env : DupEnv) (line : Line) :
    List Nat → List Line → List Nat → List Line × List Nat
  | [], extra, seen => (extra, seen)
  | sr :: rest, extra, seen =>
    if sr ∈ seen then expandInner env line rest extra seen
    else
      match env.soundref sr with
      | some _ => expandInner env line rest extra seen
      | none =>
        let dup_text := (tlkLookup env.entries sr).getD line.text
        expandInner env line rest (extra ++ [cloneOf line sr dup_text]) (sr :: seen)

/-- The `for line in list(voiced_lines)` outer loop: lines with no (or
falsy empty) table text are skipped; otherwise their normalized text keys
the duplicate index. -/
def expandOuter (env : DupEnv) :
    List Line → List Line → List Nat → List Line × List Nat
  | [], extra, seen => (extra, seen)
  | line :: rest, extra, seen =>
    match tlkLookup env.entries line.strref with
    | none => expandOuter env rest extra seen
    | some base_text =>
      if base_text = "" then expandOuter env rest extra seen
      else
        let key := normalize_text_for_match base_text
        let dup_refs := tlkIndex env.entries key
        let (extra1, seen1) := expandInner env line dup_refs extra seen
        expandOuter env rest extra1 seen1

/-- `expand_duplicates`: seed the claimed set with every already-voiced
strref, run the two loops, and append the clones. -/
def expand_duplicates (env : DupEnv) (voiced : List Line) : List Line :=
  if voiced = [] then voiced
  else
    let seen0 := voiced.map Line.strref
    let (extra, _) := expandOuter env voiced [] seen0
    voiced ++ extra

/-! ## Asset naming and the per-run dedup in `run_for_dlg` -/

/-- Zero-padded decimal of `f"{strref:06d}"`. -/
def padZeros (n width : Nat) : String :=
  let s := toString n
  String.mk (List.replicate (width - s.length) '0') ++ s

/-- `build_resref`: two-character upper-cased voice-identity base (padded
with `X` when shorter) followed by the six-digit zero-padded strref.
`vp` is the run's `VOICE_PREFIX`, fixed by `setup_dlg` for the whole run. -/
def build_resref (vp : String) (strref : Nat) : String :=
  let base := String.mk (vp.data.map Char.toUpper)
  let base2 :=
    if base.length < 2 then String.mk ((base.data ++ ['X', 'X']).take 2)
    else String.mk (base.data.take 2)
  base2 ++ padZeros strref 6

/-- The `seen_keys` loop of `run_for_dlg`: keep the first occurrence of
each `(strref, resref)` key across all variant line lists. -/
def dedupLoop : List Line → List (Nat × String) → List Line
  | [], _ => []
  | l :: rest, seen =>
    if (l.strref, l.resref) ∈ seen then dedupLoop rest seen
    else l :: dedupLoop rest ((l.strref, l.resref) :: seen)

def dedupByStrrefResref (all_lines : List Line) : List Line :=
  dedupLoop all_lines []

/-! ## The voiced-line data path of `run_for_dlg`

From the concatenated per-variant line lists to the list handed to
`write_tp2` / `write_viewer_metadata`: dedup, interactive planning, the
targeted pass, role classification, `keep_lines + narr_only + char_only +
mixed`, then TLK-wide duplicate propagation.  The synthesis steps in
between mutate only the lines' `seed_key` annotations and the files on
disk; they touch neither `strref` nor `resref` and so are omitted from
this data path. -/

structure RunEnv where
  planEnv : PlanEnv
  searches : List SearchSpec
  narrEnabled : Bool
  dupEnabled : Bool
  dupEnv : DupEnv

def pipelineVoicedLines (env : RunEnv) (all_lines : List Line) : List Line :=
  let lines := dedupByStrrefResref all_lines
  let p := plan_generation env.planEnv lines
  let t := targeted_regen_by_word env.searches lines p.1 p.2.1
  let c :=
    if env.narrEnabled then classify_narrator_only_lines t.2.2
    else ([], t.2.2, [])
  let base_voiced := t.2.1 ++ c.1 ++ c.2.1 ++ c.2.2
  if env.dupEnabled then expand_duplicates env.dupEnv base_voiced else base_voiced

/-! ## Concrete inputs used by the witness theorems -/

/-- A line as `build_lines` creates it for voice identity `AB` (raw and
synthesis text coincide for quote-free inputs without markup). -/
def exLine (sr : Nat) (txt : String) : Line :=
  { tra_id := none, strref := sr, text := txt, tts_text := txt,
    resref := build_resref "AB" sr }

def c1Line : Line := exLine 1 "Hello."

def c7Line : Line := exLine 100 "He says, \"You okay?\" Then he leaves."

def seeds3 : List Seed :=
  [{ key := "s0", wav := "s0.wav", text := "a" },
   { key := "s1", wav := "s1.wav", text := "b" },
   { key := "s2", wav := "s2.wav", text := "c" }]

def pending45 : List Line := List.replicate 45 (exLine 5 "Run.")

def wav6 : WavFile :=
  { params := { nchannels := 1, sampwidth := 2, framerate := 1000,
                nframes := 6, comptype := "NONE", compname := "not compressed" },
    samples := [100, 100, 100, 100, 100, -100] }

/-- Batch oracle for the C4 witness: one output file for a one-line chunk,
nothing otherwise. -/
def c4Env : BatchEnv :=
  { synth := fun _ texts => if texts.length = 1 then ["out0.wav"] else [] }

def c4Key : ChunkKey := ("s0", (17 : Rat) / 10, 15)

def c4GoodChunk : ChunkKey × List Line := (c4Key, [exLine 1 "A"])

def c4BadChunk : ChunkKey × List Line := (c4Key, [exLine 2 "B", exLine 3 "C"])

/-- Plan oracle for the C5 theorems: sounds dir present, every asset
exists, the operator declines keep-all and answers skip at every per-line
prompt. -/
def skipAllEnv : PlanEnv :=
  { soundsDirExists := true, hasWav := fun _ => true,
    keepAllAnswerYes := false, lineAnswer := fun _ => PlanAnswer.skip }

def skipLine : Line := exLine 7 "Hello there"

def keepLine : Line := exLine 8 "Other words"

/-- Plan oracle for the C5 witness: skip the first line, keep the second. -/
def skipFirstEnv : PlanEnv :=
  { soundsDirExists := true, hasWav := fun _ => true,
    keepAllAnswerYes := false,
    lineAnswer := fun i => if i = 0 then PlanAnswer.skip else PlanAnswer.keep }

def c3Entries : List (Nat × String) := [(1001, "\"Wait.\""), (2002, "\"Wait.\"")]

def c3LineA : Line :=
  { tra_id := some 4, strref := 1001, text := "\"Wait.\"", tts_text := "Wait.",
    resref := build_resref "AB" 1001 }

def c2Env : RunEnv :=
  { planEnv := { soundsDirExists := false, hasWav := fun _ => false,
                 keepAllAnswerYes := false, lineAnswer := fun _ => PlanAnswer.keep },
    searches := [],
    narrEnabled := true,
    dupEnabled := true,
    dupEnv := { entries := [(1, "a"), (2, "b"), (3, "a")], soundref := fun _ => none } }

def c2Input : List Line := [exLine 1 "a", exLine 1 "a", exLine 2 "b"]

/-- Invariant carried by the kept/regenerate lists through planning and the
targeted pass: both draw their members from the run's deduplicated line
list, neither repeats a string-reference, and they never share one. -/
def StrrefInv (lines keep regen : List Line) : Prop :=
  (∀ x ∈ keep, x ∈ lines) ∧ (∀ x ∈ regen, x ∈ lines) ∧
  (keep.map Line.strref).Nodup ∧ (regen.map Line.strref).Nodup ∧
  (∀ x ∈ keep, ∀ y ∈ regen, x.strref ≠ y.strref)

/-! ## Theorems -/

/-- Membership in one of the category filters determines the category. -/
lemma mem_classify_filter {x : Line} {cat : LineCat} {ls : List Line}
    (h : x ∈ ls.filter (fun l => decide (classifyLine l = cat))) :
    classifyLine x = cat := by
  simpa using (List.mem_filter.mp h).2

/-- The three category filters of a list are a permutation of it. -/
lemma classifyFilters_perm (ls : List Line) :
    (ls.filter (fun l => decide (classifyLine l = LineCat.narrOnly)) ++
     ls.filter (fun l => decide (classifyLine l = LineCat.charOnly)) ++
     ls.filter (fun l => decide (classifyLine l = LineCat.mixed))).Perm ls := by
  induction ls with
  | nil => simp
  | cons x xs ih =>
    cases h : classifyLine x with
    | narrOnly =>
      simp only [List.filter_cons, h, decide_True, decide_False, if_true, if_false,
        reduceCtorEq, decide_eq_true_eq, reduceIte, List.cons_append]
      exact ih.cons x
    | charOnly =>
      simp only [List.filter_cons, h, decide_True, decide_False, if_true, if_false,
        reduceCtorEq, decide_eq_true_eq, reduceIte, List.append_assoc] at ih ⊢
      exact List.perm_middle.trans (ih.cons x)
    | mixed =>
      simp only [List.filter_cons, h, decide_True, decide_False, if_true, if_false,
        reduceCtorEq, decide_eq_true_eq, reduceIte]
      exact List.perm_middle.trans (ih.cons x)

/-- C9: `classify_narrator_only_lines` partitions its input: the three
output lists together are a permutation of the input list (every input
line occurs in them exactly as often as in the input), and no line occurs
in two different output lists. -/
theorem c9_classify_partitions (ls : List Line) :
    ((classify_narrator_only_lines ls).1 ++ (classify_narrator_only_lines ls).2.1 ++
      (classify_narrator_only_lines ls).2.2).Perm ls ∧
    (∀ x ∈ (classify_narrator_only_lines ls).1,
      x ∉ (classify_narrator_only_lines ls).2.1 ∧
      x ∉ (classify_narrator_only_lines ls).2.2) ∧
    (∀ x ∈ (classify_narrator_only_lines ls).2.1,
      x ∉ (classify_narrator_only_lines ls).2.2) := by
  refine ⟨classifyFilters_perm ls, ?_, ?_⟩
  · intro x hx
    have hn := mem_classify_filter hx
    constructor
    · intro hc
      have := mem_classify_filter hc
      rw [hn] at this
      exact LineCat.noConfusion this
    · intro hm
      have := mem_classify_filter hm
      rw [hn] at this
      exact LineCat.noConfusion this
  · intro x hx hm
    have hc := mem_classify_filter hx
    have := mem_classify_filter hm
    rw [hc] at this
    exact LineCat.noConfusion this

/-- C9 witness: the partition at a concrete three-line input. -/
theorem c9_classify_partitions_witness :
    (((classify_narrator_only_lines [c1Line, c7Line]).1 ++
       (classify_narrator_only_lines [c1Line, c7Line]).2.1 ++
       (classify_narrator_only_lines [c1Line, c7Line]).2.2).Perm [c1Line, c7Line]) ∧
    (∀ x ∈ (classify_narrator_only_lines [c1Line, c7Line]).1,
      x ∉ (classify_narrator_only_lines [c1Line, c7Line]).2.1 ∧
      x ∉ (classify_narrator_only_lines [c1Line, c7Line]).2.2) :=
  ⟨(c9_classify_partitions [c1Line, c7Line]).1,
   (c9_classify_partitions [c1Line, c7Line]).2.1⟩

/-- C1: the claim says a quote-free line yields zero Segments and is then
treated as character-only.  The code disagrees on every quote-free line
with visible text: the trailing `if current:` block of
`split_narrator_and_dialog` emits the whole line as one `narrator` segment,
and `classify_narrator_only_lines` therefore files the line under
narrator-only, not character-only — contradicting the classifier's own
docstring ("char_only: ... lines with no quotes") and its inline comment.
This theorem evaluates the code at the failing input `"Hello."` (zero
quotation marks): one narrator segment, classified narrator-only. -/
theorem c1_noquote_line_gets_narrator_segment :
    split_narrator_and_dialog "Hello." = [(Role.narrator, "Hello.")] ∧
    classify_narrator_only_lines [c1Line] = ([c1Line], [], []) := by
  decide

/-- C7: the quote-state scan of `He says, "You okay?" Then he leaves.`
yields exactly narrator `He says, `, character `You okay?`, narrator
` Then he leaves.` (verbatim spans, quotes removed), and the line is
classified as mixed. -/
theorem c7_mixed_line_example :
    split_narrator_and_dialog "He says, \"You okay?\" Then he leaves." =
      [(Role.narrator, "He says, "), (Role.character, "You okay?"),
       (Role.narrator, " Then he leaves.")] ∧
    classifyLine c7Line = LineCat.mixed ∧
    classify_narrator_only_lines [c7Line] = ([], [], [c7Line]) := by
  decide

/-- The annotated-lines component of the chunking loop is the pure
index-based seed annotation. -/
lemma buildChunksGo_fst (rng : Nat → Rat) (keys : List String) :
    ∀ (ls : List Line) (idx : Nat) (acc : List Line)
      (chunks : List (ChunkKey × List Line)),
      (buildChunksGo rng keys idx ls acc chunks).1 = acc ++ annotateSeeds keys idx ls := by
  intro ls
  induction ls with
  | nil => intro idx acc chunks; simp [buildChunksGo, annotateSeeds]
  | cons l rest ih =>
    intro idx acc chunks
    simp only [buildChunksGo, annotateSeeds]
    rw [ih]
    simp [List.append_assoc]

/-- Pointwise description of `annotateSeeds`. -/
lemma annotateSeeds_getD (keys : List String) :
    ∀ (ls : List Line) (i j : Nat), j < ls.length →
      (annotateSeeds keys i ls).getD j defaultLine =
        { ls.getD j defaultLine with
          seed_key := some (keys.getD ((i + j) / SEED_GROUP_SIZE % keys.length) "") } := by
  intro ls
  induction ls with
  | nil => intro i j hj; simp at hj
  | cons l rest ih =>
    intro i j hj
    cases j with
    | zero => simp [annotateSeeds]
    | succ j =>
      have hj' : j < rest.length := by simpa using hj
      have := ih (i + 1) j hj'
      simp only [annotateSeeds, List.getD_cons_succ, this]
      have harith : i + 1 + j = i + (j + 1) := by omega
      rw [harith]

/-- C6: voice-seed assignment in `build_chunks_for_regen` proceeds in
fixed-size consecutive groups cycling through the seed-key list: the
pending line at index `j` receives seed key number
`(j / SEED_GROUP_SIZE) % len(keys)` (the lines returned by the loop carry
exactly this `seed_key` annotation). -/
theorem c6_seed_group_assignment (rng : Nat → Rat) (seeds : List Seed)
    (regen : List Line) (hseeds : seeds ≠ []) :
    ∃ chunks, build_chunks_for_regen rng seeds regen =
        some (annotateSeeds (seeds.map Seed.key) 0 regen, chunks) ∧
      ∀ j, j < regen.length →
        (annotateSeeds (seeds.map Seed.key) 0 regen).getD j defaultLine =
          { regen.getD j defaultLine with
            seed_key := some ((seeds.map Seed.key).getD
              (j / SEED_GROUP_SIZE % (seeds.map Seed.key).length) "") } := by
  have hkeys : seeds.map Seed.key ≠ [] := by
    intro h
    exact hseeds (List.map_eq_nil_iff.mp h)
  by_cases hregen : regen = []
  · subst hregen
    refine ⟨[], ?_, ?_⟩
    · simp [build_chunks_for_regen, annotateSeeds]
    · intro j hj; simp at hj
  · refine ⟨(buildChunksGo rng (seeds.map Seed.key) 0 regen [] []).2, ?_, ?_⟩
    · simp only [build_chunks_for_regen, if_neg hregen, if_neg hkeys]
      congr 1
      have hfst := buildChunksGo_fst rng (seeds.map Seed.key) regen 0 [] []
      simp only [List.nil_append] at hfst
      exact Prod.ext hfst rfl
    · intro j hj
      have := annotateSeeds_getD (seeds.map Seed.key) regen 0 j hj
      simpa using this

/-- C6 witness: with group size 20, 45 pending lines and 3 seed keys,
lines 0–19 get seed `s0`, 20–39 get `s1`, 40–44 get `s2`. -/
theorem c6_seed_group_assignment_witness :
    seeds3 ≠ [] ∧
    (∃ chunks, build_chunks_for_regen (fun _ => (17 : Rat) / 10) seeds3 pending45 =
        some (annotateSeeds (seeds3.map Seed.key) 0 pending45, chunks) ∧
      ∀ j, j < pending45.length →
        (annotateSeeds (seeds3.map Seed.key) 0 pending45).getD j defaultLine =
          { pending45.getD j defaultLine with
            seed_key := some ((seeds3.map Seed.key).getD
              (j / SEED_GROUP_SIZE % (seeds3.map Seed.key).length) "") }) ∧
    (annotateSeeds (seeds3.map Seed.key) 0 pending45).map Line.seed_key =
      List.replicate 20 (some "s0") ++ List.replicate 20 (some "s1") ++
        List.replicate 5 (some "s2") :=
  ⟨by decide,
   c6_seed_group_assignment (fun _ => (17 : Rat) / 10) seeds3 pending45 (by decide),
   by decide⟩

/-- Chunks whose synthesis output count matches are processed in order,
each moving exactly its own files into the sounds directory. -/
lemma run_voxcpm_batch_ok_front (env : BatchEnv) :
    ∀ (pre tail : List (ChunkKey × List Line)) (moved : List String),
      (∀ p ∈ pre, (env.synth p.1 (p.2.map Line.tts_text)).length = p.2.length) →
      run_voxcpm_batch env (pre ++ tail) moved =
        run_voxcpm_batch env tail
          (moved ++ (pre.map (fun p => p.2.map soundsTarget)).flatten) := by
  intro pre
  induction pre with
  | nil => intro tail moved _; simp
  | cons p ps ih =>
    intro tail moved hok
    obtain ⟨k, chunk⟩ := p
    have hk := hok (k, chunk) (List.mem_cons_self _ _)
    simp only [List.cons_append, run_voxcpm_batch]
    rw [if_neg (by simp [hk])]
    simp only [List.append_eq]
    rw [ih tail (moved ++ chunk.map soundsTarget)
      (fun q hq => hok q (List.mem_cons_of_mem _ hq))]
    simp [List.append_assoc]

/-- C4: when a chunk's output file count differs from its input line count,
`run_voxcpm_batch` aborts the run (`SystemExit`, here `Except.error`), and
the sounds directory at that moment holds exactly the files of the earlier,
matching chunks — none of the mismatched chunk's files has been moved. -/
theorem c4_chunk_mismatch_aborts_before_move (env : BatchEnv)
    (pre : List (ChunkKey × List Line)) (k : ChunkKey) (chunk : List Line)
    (rest : List (ChunkKey × List Line))
    (hok : ∀ p ∈ pre, (env.synth p.1 (p.2.map Line.tts_text)).length = p.2.length)
    (hbad : (env.synth k (chunk.map Line.tts_text)).length ≠ chunk.length) :
    run_voxcpm_batch env (pre ++ (k, chunk) :: rest) [] =
      Except.error ((pre.map (fun p => p.2.map soundsTarget)).flatten) := by
  rw [run_voxcpm_batch_ok_front env pre ((k, chunk) :: rest) [] hok]
  simp only [run_voxcpm_batch, List.nil_append]
  rw [if_pos hbad]

/-- C4 witness: a good one-line chunk followed by a two-line chunk whose
synthesis yields no files; the run aborts with only the first chunk's file
moved. -/
theorem c4_chunk_mismatch_aborts_before_move_witness :
    (∀ p ∈ [c4GoodChunk], (c4Env.synth p.1 (p.2.map Line.tts_text)).length = p.2.length) ∧
    (c4Env.synth c4BadChunk.1 (c4BadChunk.2.map Line.tts_text)).length ≠ c4BadChunk.2.length ∧
    run_voxcpm_batch c4Env [c4GoodChunk, c4BadChunk] [] =
      Except.error ["AB000001.wav"] := by
  refine ⟨by decide, by decide, ?_⟩
  have h := c4_chunk_mismatch_aborts_before_move c4Env [c4GoodChunk]
    c4BadChunk.1 c4BadChunk.2 [] (by decide) (by decide)
  simpa using h

lemma mapWithIndex_length (f : Nat → Int → Int) :
    ∀ (l : List Int) (i : Nat), (mapWithIndex f i l).length = l.length := by
  intro l
  induction l with
  | nil => intro i; rfl
  | cons s rest ih => intro i; simp [mapWithIndex, ih]

lemma mapWithIndex_getD (f : Nat → Int → Int) :
    ∀ (l : List Int) (i j : Nat),
      (mapWithIndex f i l).getD j 0 =
        if j < l.length then f (i + j) (l.getD j 0) else 0 := by
  intro l
  induction l with
  | nil => intro i j; simp [mapWithIndex]
  | cons s rest ih =>
    intro i j
    cases j with
    | zero => simp [mapWithIndex]
    | succ j =>
      have := ih (i + 1) j
      simp only [mapWithIndex, List.getD_cons_succ, this, List.length_cons]
      have harith : i + 1 + j = i + (j + 1) := by omega
      rw [harith]
      simp [Nat.succ_lt_succ_iff]

lemma truncDiv_natAbs (a : Int) (n : Nat) : (truncDiv a n).natAbs = a.natAbs / n := by
  unfold truncDiv
  split
  · next h =>
    simp only [Int.natAbs_ofNat]
    congr 1
    omega
  · next h =>
    simp only [Int.natAbs_neg, Int.natAbs_ofNat]
    congr 1
    omega

lemma truncDiv_nonneg {a : Int} (n : Nat) (h : 0 ≤ a) : 0 ≤ truncDiv a n := by
  unfold truncDiv
  rw [if_pos h]
  exact Int.ofNat_nonneg _

lemma truncDiv_nonpos {a : Int} (n : Nat) (h : a ≤ 0) : truncDiv a n ≤ 0 := by
  unfold truncDiv
  split
  · next h2 =>
    have ha : a = 0 := le_antisymm h h2
    subst ha
    simp
  · next h2 =>
    simp only [Left.neg_nonpos_iff]
    exact Int.ofNat_nonneg _

lemma nat_mul_div_le_self (a k n : Nat) (hk : k ≤ n) : a * k / n ≤ a := by
  rcases Nat.eq_zero_or_pos n with hn | hn
  · subst hn; simp
  · calc a * k / n ≤ a * n / n := Nat.div_le_div_right (Nat.mul_le_mul_left a hk)
    _ = a := Nat.mul_div_cancel a hn

/-- Scaling by a factor `k / n` with `k ≤ n` and truncating toward zero
never increases the absolute value. -/
lemma truncDiv_mul_natAbs_le (s : Int) (k n : Nat) (hk : k ≤ n) :
    (truncDiv (s * (k : Int)) n).natAbs ≤ s.natAbs := by
  rw [truncDiv_natAbs, Int.natAbs_mul, Int.natAbs_ofNat]
  exact nat_mul_div_le_self s.natAbs k n hk

lemma fadeInSample_abs (fin nch idx : Nat) (s : Int) :
    (fadeInSample fin nch idx s).natAbs ≤ s.natAbs ∧
    (0 ≤ s → 0 ≤ fadeInSample fin nch idx s) ∧
    (s ≤ 0 → fadeInSample fin nch idx s ≤ 0) := by
  unfold fadeInSample
  split
  · next h =>
    have hlt : idx / nch < fin := by
      have := (Bool.and_eq_true _ _).mp h
      exact of_decide_eq_true this.2
    refine ⟨truncDiv_mul_natAbs_le s _ fin (le_of_lt hlt), ?_, ?_⟩
    · intro hs
      exact truncDiv_nonneg fin (mul_nonneg hs (Int.ofNat_nonneg _))
    · intro hs
      exact truncDiv_nonpos fin (mul_nonpos_of_nonpos_of_nonneg hs (Int.ofNat_nonneg _))
  · exact ⟨le_refl _, fun hs => hs, fun hs => hs⟩

lemma fadeOutSample_abs (fout total nch idx : Nat) (s : Int) :
    (fadeOutSample fout total nch idx s).natAbs ≤ s.natAbs ∧
    (0 ≤ s → 0 ≤ fadeOutSample fout total nch idx s) ∧
    (s ≤ 0 → fadeOutSample fout total nch idx s ≤ 0) := by
  unfold fadeOutSample
  split
  · next h =>
    have h1 := (Bool.and_eq_true _ _).mp h
    have h2 := (Bool.and_eq_true _ _).mp h1.1
    have hge : total - fout ≤ idx / nch := of_decide_eq_true h2.2
    have hk : total - idx / nch ≤ fout := by omega
    refine ⟨truncDiv_mul_natAbs_le s _ fout hk, ?_, ?_⟩
    · intro hs
      exact truncDiv_nonneg fout (mul_nonneg hs (Int.ofNat_nonneg _))
    · intro hs
      exact truncDiv_nonpos fout (mul_nonpos_of_nonpos_of_nonneg hs (Int.ofNat_nonneg _))
  · exact ⟨le_refl _, fun hs => hs, fun hs => hs⟩

lemma applyFadeIn_length (fin nch : Nat) (samples : List Int) :
    (applyFadeIn fin nch samples).length = samples.length :=
  mapWithIndex_length _ samples 0

lemma applyFadeOut_length (fout total nch : Nat) (samples : List Int) :
    (applyFadeOut fout total nch samples).length = samples.length :=
  mapWithIndex_length _ samples 0

/-- Pointwise bound for the composition fade-in-then-fade-out. -/
lemma fadeBoth_pointwise (fin fout total nch : Nat) (samples : List Int) (j : Nat) :
    ((applyFadeOut fout total nch (applyFadeIn fin nch samples)).getD j 0).natAbs ≤
      (samples.getD j 0).natAbs ∧
    (0 ≤ samples.getD j 0 →
      0 ≤ (applyFadeOut fout total nch (applyFadeIn fin nch samples)).getD j 0) ∧
    (samples.getD j 0 ≤ 0 →
      (applyFadeOut fout total nch (applyFadeIn fin nch samples)).getD j 0 ≤ 0) := by
  by_cases hj : j < samples.length
  · have hmid : (applyFadeIn fin nch samples).getD j 0 =
        fadeInSample fin nch j (samples.getD j 0) := by
      rw [applyFadeIn, mapWithIndex_getD, if_pos hj, Nat.zero_add]
    have hout : (applyFadeOut fout total nch (applyFadeIn fin nch samples)).getD j 0 =
        fadeOutSample fout total nch j ((applyFadeIn fin nch samples).getD j 0) := by
      rw [applyFadeOut, mapWithIndex_getD, Nat.zero_add,
        if_pos (by rw [applyFadeIn_length]; exact hj)]
    rw [hout, hmid]
    obtain ⟨hin1, hin2, hin3⟩ := fadeInSample_abs fin nch j (samples.getD j 0)
    obtain ⟨hout1, hout2, hout3⟩ :=
      fadeOutSample_abs fout total nch j (fadeInSample fin nch j (samples.getD j 0))
    exact ⟨le_trans hout1 hin1, fun hs => hout2 (hin2 hs), fun hs => hout3 (hin3 hs)⟩
  · have h1 : samples.getD j 0 = 0 :=
      List.getD_eq_default _ _ (le_of_not_lt hj)
    have h2 : (applyFadeOut fout total nch (applyFadeIn fin nch samples)).getD j 0 = 0 := by
      refine List.getD_eq_default _ _ ?_
      rw [applyFadeOut_length, applyFadeIn_length]
      exact le_of_not_lt hj
    rw [h1, h2]
    exact ⟨le_refl _, fun _ => le_refl _, fun _ => le_refl _⟩

/-- C8: inside `apply_fade_in_out` both the fade-in and the fade-out frame
counts are clamped to at most half the clip's frame count; a clip shorter
than twice the configured fade length gets exactly half-length fade
windows; and the rewrite is total — the sample array keeps its length, so
no index is ever out of range and no error is raised. -/
theorem c8_fade_windows_clamped (fade_in_ms fade_out_ms : Nat) (w : WavFile)
    (h2 : w.params.sampwidth = 2) (hct : w.params.comptype = "NONE")
    (hn : 0 < w.params.nframes) :
    effFadeFrames w.params.framerate fade_in_ms w.params.nframes ≤ w.params.nframes / 2 ∧
    effFadeFrames w.params.framerate fade_out_ms w.params.nframes ≤ w.params.nframes / 2 ∧
    (w.params.nframes < 2 * (w.params.framerate * fade_in_ms / 1000) →
      effFadeFrames w.params.framerate fade_in_ms w.params.nframes = w.params.nframes / 2) ∧
    (w.params.nframes < 2 * (w.params.framerate * fade_out_ms / 1000) →
      effFadeFrames w.params.framerate fade_out_ms w.params.nframes = w.params.nframes / 2) ∧
    (apply_fade_in_out fade_in_ms fade_out_ms w).samples.length = w.samples.length := by
  have hhalf : ∀ ms : Nat, w.params.nframes < 2 * (w.params.framerate * ms / 1000) →
      effFadeFrames w.params.framerate ms w.params.nframes = w.params.nframes / 2 := by
    intro ms hms
    have : w.params.nframes / 2 ≤ w.params.framerate * ms / 1000 := by
      have := (Nat.div_lt_iff_lt_mul (by norm_num : 0 < 2)).mpr
        (by omega : w.params.nframes < (w.params.framerate * ms / 1000) * 2)
      omega
    exact Nat.min_eq_right this
  refine ⟨Nat.min_le_right _ _, Nat.min_le_right _ _, hhalf fade_in_ms, hhalf fade_out_ms, ?_⟩
  unfold apply_fade_in_out
  split
  · rfl
  · split
    · next hfmt => exact absurd ⟨h2, hct⟩ hfmt
    · split
      · next hz => omega
      · simp [applyFadeOut_length, applyFadeIn_length]

/-- C8 witness: a 6-frame mono clip with 10 ms fades at 1000 Hz — the
configured 10-frame windows clamp to 3 frames each. -/
theorem c8_fade_windows_clamped_witness :
    wav6.params.sampwidth = 2 ∧ wav6.params.comptype = "NONE" ∧ 0 < wav6.params.nframes ∧
    (effFadeFrames wav6.params.framerate FADE_IN_MS wav6.params.nframes ≤
      wav6.params.nframes / 2 ∧
     effFadeFrames wav6.params.framerate FADE_OUT_MS wav6.params.nframes ≤
      wav6.params.nframes / 2 ∧
     (wav6.params.nframes < 2 * (wav6.params.framerate * FADE_IN_MS / 1000) →
       effFadeFrames wav6.params.framerate FADE_IN_MS wav6.params.nframes =
         wav6.params.nframes / 2) ∧
     (wav6.params.nframes < 2 * (wav6.params.framerate * FADE_OUT_MS / 1000) →
       effFadeFrames wav6.params.framerate FADE_OUT_MS wav6.params.nframes =
         wav6.params.nframes / 2) ∧
     (apply_fade_in_out FADE_IN_MS FADE_OUT_MS wav6).samples.length =
       wav6.samples.length) :=
  ⟨by decide, by decide, by decide,
   c8_fade_windows_clamped FADE_IN_MS FADE_OUT_MS wav6 (by decide) (by decide) (by decide)⟩

/-- C10: on a 16-bit uncompressed clip with a positive frame count,
`apply_fade_in_out` keeps every header parameter (channel count, sample
width, frame rate, compression scheme, frame count) and the sample-array
length, and each output sample is the corresponding input sample scaled by
a factor between 0 and 1: its absolute value never grows and its sign
never flips. -/
theorem c10_fade_preserves_format_and_attenuates (fade_in_ms fade_out_ms : Nat)
    (w : WavFile) (h2 : w.params.sampwidth = 2) (hct : w.params.comptype = "NONE")
    (hn : 0 < w.params.nframes) :
    (apply_fade_in_out fade_in_ms fade_out_ms w).params = w.params ∧
    (apply_fade_in_out fade_in_ms fade_out_ms w).samples.length = w.samples.length ∧
    ∀ j : Nat,
      ((apply_fade_in_out fade_in_ms fade_out_ms w).samples.getD j 0).natAbs ≤
        (w.samples.getD j 0).natAbs ∧
      (0 ≤ w.samples.getD j 0 →
        0 ≤ (apply_fade_in_out fade_in_ms fade_out_ms w).samples.getD j 0) ∧
      (w.samples.getD j 0 ≤ 0 →
        (apply_fade_in_out fade_in_ms fade_out_ms w).samples.getD j 0 ≤ 0) := by
  unfold apply_fade_in_out
  split
  · exact ⟨rfl, rfl, fun j => ⟨le_refl _, fun hs => hs, fun hs => hs⟩⟩
  · split
    · next hfmt => exact absurd ⟨h2, hct⟩ hfmt
    · split
      · next hz => omega
      · refine ⟨rfl, by simp [applyFadeOut_length, applyFadeIn_length], ?_⟩
        intro j
        exact fadeBoth_pointwise _ _ _ _ w.samples j

/-- C10 witness: the 6-frame clip again; hypotheses checked concretely. -/
theorem c10_fade_preserves_format_and_attenuates_witness :
    wav6.params.sampwidth = 2 ∧ wav6.params.comptype = "NONE" ∧ 0 < wav6.params.nframes ∧
    ((apply_fade_in_out FADE_IN_MS FADE_OUT_MS wav6).params = wav6.params ∧
     (apply_fade_in_out FADE_IN_MS FADE_OUT_MS wav6).samples.length =
       wav6.samples.length ∧
     ∀ j : Nat,
      ((apply_fade_in_out FADE_IN_MS FADE_OUT_MS wav6).samples.getD j 0).natAbs ≤
        (wav6.samples.getD j 0).natAbs ∧
      (0 ≤ wav6.samples.getD j 0 →
        0 ≤ (apply_fade_in_out FADE_IN_MS FADE_OUT_MS wav6).samples.getD j 0) ∧
      (wav6.samples.getD j 0 ≤ 0 →
        (apply_fade_in_out FADE_IN_MS FADE_OUT_MS wav6).samples.getD j 0 ≤ 0)) :=
  ⟨by decide, by decide, by decide,
   c10_fade_preserves_format_and_attenuates FADE_IN_MS FADE_OUT_MS wav6
     (by decide) (by decide) (by decide)⟩

/-- Indices with equal projections coincide when the projected list has no
duplicates. -/
lemma nodup_map_getD_inj {f : Line → Nat} {ls : List Line} (h : (ls.map f).Nodup)
    {k1 k2 : Nat} (h1 : k1 < ls.length) (h2 : k2 < ls.length)
    (he : f (ls.getD k1 defaultLine) = f (ls.getD k2 defaultLine)) : k1 = k2 := by
  rw [List.getD_eq_get ls defaultLine h1, List.getD_eq_get ls defaultLine h2] at he
  have hm1 : k1 < (ls.map f).length := by simpa using h1
  have hm2 : k2 < (ls.map f).length := by simpa using h2
  have : (ls.map f).get ⟨k1, hm1⟩ = (ls.map f).get ⟨k2, hm2⟩ := by
    simpa [List.get_map] using he
  have := (List.Nodup.get_inj_iff h).mp this
  exact congrArg Fin.val this

end AutoVO

namespace AutoVO

lemma planStep_skipInteractive_false (env : PlanEnv) (idx : Nat) (l0 : Line)
    (st : PlanState) (hglobal : env.keepAllAnswerYes = false)
    (hsi : st.skipInteractive = false) :
    (planStep env idx l0 st).skipInteractive = false := by
  unfold planStep
  repeat' split
  all_goals simp_all

lemma planStep_keep_mem (env : PlanEnv) (idx : Nat) (l0 : Line) (st : PlanState) :
    ∀ x ∈ (planStep env idx l0 st).keep, x ∈ st.keep ∨ x = l0 := by
  intro x hx
  unfold planStep at hx
  dsimp only at hx
  repeat' split at hx
  all_goals
    try simp only [List.mem_append, List.mem_singleton] at hx
  all_goals tauto

lemma planStep_regen_mem (env : PlanEnv) (idx : Nat) (l0 : Line) (st : PlanState) :
    ∀ x ∈ (planStep env idx l0 st).regen, x ∈ st.regen ∨ x = l0 := by
  intro x hx
  unfold planStep at hx
  dsimp only at hx
  repeat' split at hx
  all_goals
    try simp only [List.mem_append, List.mem_singleton] at hx
  all_goals tauto

lemma planStep_skip_unchanged (env : PlanEnv) (idx : Nat) (l0 : Line) (st : PlanState)
    (hw : env.hasWav l0.resref = true)
    (hglobal : env.keepAllAnswerYes = false)
    (hsi : st.skipInteractive = false)
    (ha : env.lineAnswer idx = PlanAnswer.skip) :
    (planStep env idx l0 st).keep = st.keep ∧ (planStep env idx l0 st).regen = st.regen := by
  by_cases hasked : st.askedGlobal <;>
    simp [planStep, hw, ASK_ON_EXISTING, hasked, hglobal, hsi, ha]

/-- One planning step keeps a skipped strref out of both output lists and
leaves per-line prompting active. -/
lemma planStep_no_strref (env : PlanEnv) (S : Nat) (idx : Nat) (l0 : Line)
    (st : PlanState) (hglobal : env.keepAllAnswerYes = false)
    (hline : l0.strref = S →
      env.hasWav l0.resref = true ∧ env.lineAnswer idx = PlanAnswer.skip)
    (hsi : st.skipInteractive = false)
    (hk : ∀ x ∈ st.keep, x.strref ≠ S) (hr : ∀ x ∈ st.regen, x.strref ≠ S) :
    (planStep env idx l0 st).skipInteractive = false ∧
    (∀ x ∈ (planStep env idx l0 st).keep, x.strref ≠ S) ∧
    (∀ x ∈ (planStep env idx l0 st).regen, x.strref ≠ S) := by
  refine ⟨planStep_skipInteractive_false env idx l0 st hglobal hsi, ?_, ?_⟩
  · by_cases hS : l0.strref = S
    · obtain ⟨hw, ha⟩ := hline hS
      rw [(planStep_skip_unchanged env idx l0 st hw hglobal hsi ha).1]
      exact hk
    · intro x hx
      rcases planStep_keep_mem env idx l0 st x hx with h | h
      · exact hk x h
      · rw [h]; exact hS
  · by_cases hS : l0.strref = S
    · obtain ⟨hw, ha⟩ := hline hS
      rw [(planStep_skip_unchanged env idx l0 st hw hglobal hsi ha).2]
      exact hr
    · intro x hx
      rcases planStep_regen_mem env idx l0 st x hx with h | h
      · exact hr x h
      · rw [h]; exact hS

/-- The planning loop keeps the skipped strref out of both lists. -/
lemma planLoop_no_strref (env : PlanEnv) (S : Nat)
    (hglobal : env.keepAllAnswerYes = false) :
    ∀ (ls : List Line) (idx : Nat) (st : PlanState),
      (∀ k, k < ls.length → (ls.getD k defaultLine).strref = S →
        env.hasWav (ls.getD k defaultLine).resref = true ∧
          env.lineAnswer (idx + k) = PlanAnswer.skip) →
      st.skipInteractive = false →
      (∀ x ∈ st.keep, x.strref ≠ S) →
      (∀ x ∈ st.regen, x.strref ≠ S) →
      (∀ x ∈ (planLoop env idx ls st).keep, x.strref ≠ S) ∧
      (∀ x ∈ (planLoop env idx ls st).regen, x.strref ≠ S) := by
  intro ls
  induction ls with
  | nil => intro idx st _ _ hk hr; exact ⟨hk, hr⟩
  | cons l0 rest ih =>
    intro idx st hidx hsi hk hr
    have hline : l0.strref = S →
        env.hasWav l0.resref = true ∧ env.lineAnswer idx = PlanAnswer.skip := by
      intro hS
      have := hidx 0 (by simp) (by simpa using hS)
      simpa using this
    obtain ⟨hsi1, hk1, hr1⟩ :=
      planStep_no_strref env S idx l0 st hglobal hline hsi hk hr
    have hidx1 : ∀ k, k < rest.length → (rest.getD k defaultLine).strref = S →
        env.hasWav (rest.getD k defaultLine).resref = true ∧
          env.lineAnswer (idx + 1 + k) = PlanAnswer.skip := by
      intro k hkl hkS
      have := hidx (k + 1) (by simpa using Nat.succ_lt_succ hkl) (by simpa using hkS)
      have harith : idx + (k + 1) = idx + 1 + k := by omega
      rw [harith] at this
      simpa using this
    exact ih (idx + 1) (planStep env idx l0 st) hidx1 hsi1 hk1 hr1

lemma applyOverrides_text (cfgO : Option Rat) (stepsO : Option Nat) (l : Line) :
    (applyOverrides cfgO stepsO l).text = l.text := by
  unfold applyOverrides
  cases cfgO <;> cases stepsO <;> rfl

lemma applyOverrides_strref (cfgO : Option Rat) (stepsO : Option Nat) (l : Line) :
    (applyOverrides cfgO stepsO l).strref = l.strref := by
  unfold applyOverrides
  cases cfgO <;> cases stepsO <;> rfl

/-- The matching loop of one search keeps a never-matching strref out of
both lists. -/
lemma targetedMatchLoop_no_strref (needle : List Char) (S : Nat) :
    ∀ (ls keep regen : List Line),
      (∀ x ∈ ls, x.strref = S → lineMatches needle x = false) →
      (∀ x ∈ keep, x.strref ≠ S) →
      (∀ x ∈ regen, x.strref ≠ S) →
      (∀ x ∈ (targetedMatchLoop needle ls keep regen).2.1, x.strref ≠ S) ∧
      (∀ x ∈ (targetedMatchLoop needle ls keep regen).2.2, x.strref ≠ S) := by
  intro ls
  induction ls with
  | nil => intro keep regen _ hk hr; exact ⟨hk, hr⟩
  | cons l0 rest ih =>
    intro keep regen hls hk hr
    have hls1 : ∀ x ∈ rest, x.strref = S → lineMatches needle x = false :=
      fun x hx => hls x (List.mem_cons_of_mem _ hx)
    by_cases hmatch : lineMatches needle l0
    · have hS : l0.strref ≠ S := by
        intro hS
        have hm := hls l0 (List.mem_cons_self _ _) hS
        rw [hmatch] at hm
        exact Bool.noConfusion hm
      have hkeep1 : ∀ x ∈ (if l0 ∈ keep then keep.erase l0 else keep), x.strref ≠ S := by
        split
        · intro x hx; exact hk x (List.mem_of_mem_erase hx)
        · exact hk
      have hregen1 : ∀ x ∈ (if l0 ∈ regen then regen else regen ++ [l0]),
          x.strref ≠ S := by
        split
        · exact hr
        · intro x hx
          rcases List.mem_append.mp hx with hx | hx
          · exact hr x hx
          · rw [List.mem_singleton.mp hx]; exact hS
      have := ih (if l0 ∈ keep then keep.erase l0 else keep)
        (if l0 ∈ regen then regen else regen ++ [l0]) hls1 hkeep1 hregen1
      simpa [targetedMatchLoop, hmatch] using this
    · have := ih keep regen hls1 hk hr
      simpa [targetedMatchLoop, hmatch] using this

/-- The searched-substring fold keeps a strref whose text matches no search
out of both lists. -/
lemma targetedRegenGo_no_strref (S : Nat) (T : String) :
    ∀ (searches : List SearchSpec) (lines keep regen : List Line),
      (∀ sp ∈ searches, containsSub (lowerChars T) (lowerChars sp.needle) = false) →
      (∀ x ∈ lines, x.strref = S → x.text = T) →
      (∀ x ∈ keep, x.strref ≠ S) →
      (∀ x ∈ regen, x.strref ≠ S) →
      (∀ x ∈ (targetedRegenGo searches lines keep regen).2.1, x.strref ≠ S) ∧
      (∀ x ∈ (targetedRegenGo searches lines keep regen).2.2, x.strref ≠ S) := by
  intro searches
  induction searches with
  | nil => intro lines keep regen _ _ hk hr; exact ⟨hk, hr⟩
  | cons sp rest ih =>
    intro lines keep regen hsearch hlines hk hr
    have hmatchF : ∀ x ∈ lines, x.strref = S →
        lineMatches (lowerChars sp.needle) x = false := by
      intro x hx hS
      have hT := hlines x hx hS
      have heq : lineMatches (lowerChars sp.needle) x =
          containsSub (lowerChars T) (lowerChars sp.needle) := by
        unfold lineMatches lowerChars
        rw [hT]
      rw [heq]
      exact hsearch sp (List.mem_cons_self _ _)
    obtain ⟨hk1, hr1⟩ := targetedMatchLoop_no_strref (lowerChars sp.needle) S
      lines keep regen hmatchF hk hr
    have hsearch1 : ∀ q ∈ rest,
        containsSub (lowerChars T) (lowerChars q.needle) = false :=
      fun q hq => hsearch q (List.mem_cons_of_mem _ hq)
    simp only [targetedRegenGo, targetedApplySearch]
    split
    · exact ih lines
        (targetedMatchLoop (lowerChars sp.needle) lines keep regen).2.1
        (targetedMatchLoop (lowerChars sp.needle) lines keep regen).2.2
        hsearch1 hlines hk1 hr1
    · set upd := fun l =>
        if l ∈ (targetedMatchLoop (lowerChars sp.needle) lines keep regen).1 then
          applyOverrides sp.cfgOverride sp.stepsOverride l
        else l with hupd
      have hupd_strref : ∀ l, (upd l).strref = l.strref := by
        intro l
        rw [hupd]
        dsimp only
        split
        · exact applyOverrides_strref _ _ _
        · rfl
      have hupd_text : ∀ l, (upd l).text = l.text := by
        intro l
        rw [hupd]
        dsimp only
        split
        · exact applyOverrides_text _ _ _
        · rfl
      refine ih (lines.map upd)
        ((targetedMatchLoop (lowerChars sp.needle) lines keep regen).2.1.map upd)
        ((targetedMatchLoop (lowerChars sp.needle) lines keep regen).2.2.map upd)
        hsearch1 ?_ ?_ ?_
      · intro x hx hS
        obtain ⟨y, hy, hxy⟩ := List.mem_map.mp hx
        rw [← hxy, hupd_text]
        exact hlines y hy (by rw [← hS, ← hxy, hupd_strref])
      · intro x hx
        obtain ⟨y, hy, hxy⟩ := List.mem_map.mp hx
        rw [← hxy, hupd_strref]
        exact hk1 y hy
      · intro x hx
        obtain ⟨y, hy, hxy⟩ := List.mem_map.mp hx
        rw [← hxy, hupd_strref]
        exact hr1 y hy

/-- C5 counterexample: the claim as stated is false.  The operator skips
the (existing-asset) line `skipLine` at the per-line prompt, so
`plan_generation` puts it in neither set; but `targeted_regen_by_word`
scans all lines, and the search for `hello` (contained in the skipped
line's text) re-adds the skipped line to the regenerated set. -/
theorem c5_skip_resurrected_by_search_counterexample :
    plan_generation skipAllEnv [skipLine] = ([], [], false) ∧
    targeted_regen_by_word
        [{ needle := "hello", cfgOverride := none, stepsOverride := none }]
        [skipLine] [] [] =
      ([skipLine], [], [skipLine]) := by
  decide

/-- C5 (amended): answering skip-entirely keeps the line out of both the
kept and the regenerated set of `plan_generation`; the substring-targeted
pass, however, scans all lines — including skipped ones — so the skipped
line stays out of both sets (and hence out of all downstream processing)
provided its raw text contains none of the searched substrings. -/
theorem c5_skip_excluded_unless_searched
    (env : PlanEnv) (lines : List Line) (searches : List SearchSpec)
    (l : Line) (j : Nat) (hj : j < lines.length)
    (hl : lines.getD j defaultLine = l)
    (hnd : (lines.map Line.strref).Nodup)
    (hsounds : env.soundsDirExists = true)
    (hwav : env.hasWav l.resref = true)
    (hglobal : env.keepAllAnswerYes = false)
    (hans : env.lineAnswer j = PlanAnswer.skip)
    (hnomatch : ∀ sp ∈ searches,
      containsSub (lowerChars l.text) (lowerChars sp.needle) = false) :
    (∀ x ∈ (plan_generation env lines).1, x.strref ≠ l.strref) ∧
    (∀ x ∈ (plan_generation env lines).2.1, x.strref ≠ l.strref) ∧
    (∀ x ∈ (targeted_regen_by_word searches lines (plan_generation env lines).1
        (plan_generation env lines).2.1).2.1, x.strref ≠ l.strref) ∧
    (∀ x ∈ (targeted_regen_by_word searches lines (plan_generation env lines).1
        (plan_generation env lines).2.1).2.2, x.strref ≠ l.strref) := by
  have hplan_eq : plan_generation env lines =
      ((planLoop env 0 lines
          { keep := [], regen := [], globalKeepAll := false,
            skipInteractive := false, askedGlobal := false }).keep,
       (planLoop env 0 lines
          { keep := [], regen := [], globalKeepAll := false,
            skipInteractive := false, askedGlobal := false }).regen,
       (planLoop env 0 lines
          { keep := [], regen := [], globalKeepAll := false,
            skipInteractive := false, askedGlobal := false }).globalKeepAll) := by
    simp [plan_generation, hsounds]
  have hidx : ∀ k, k < lines.length → (lines.getD k defaultLine).strref = l.strref →
      env.hasWav (lines.getD k defaultLine).resref = true ∧
        env.lineAnswer (0 + k) = PlanAnswer.skip := by
    intro k hkl hkS
    have hkj : k = j := by
      apply nodup_map_getD_inj hnd hkl hj
      rw [hl]
      exact hkS
    subst hkj
    rw [hl]
    constructor
    · exact hwav
    · rw [Nat.zero_add]; exact hans
  obtain ⟨hk0, hr0⟩ := planLoop_no_strref env l.strref hglobal lines 0
    { keep := [], regen := [], globalKeepAll := false,
      skipInteractive := false, askedGlobal := false }
    hidx rfl (by intro x hx; exact absurd hx (List.not_mem_nil x))
    (by intro x hx; exact absurd hx (List.not_mem_nil x))
  have hkeep0 : ∀ x ∈ (plan_generation env lines).1, x.strref ≠ l.strref := by
    rw [hplan_eq]; exact hk0
  have hregen0 : ∀ x ∈ (plan_generation env lines).2.1, x.strref ≠ l.strref := by
    rw [hplan_eq]; exact hr0
  have hlines_text : ∀ x ∈ lines, x.strref = l.strref → x.text = l.text := by
    intro x hx hS
    obtain ⟨k, hk⟩ := List.mem_iff_get.mp hx
    have hgd : lines.getD k.val defaultLine = x := by
      rw [List.getD_eq_get lines defaultLine k.isLt]
      exact hk
    have hkj : k.val = j := by
      apply nodup_map_getD_inj hnd k.isLt hj
      rw [hgd, hl, hS]
    have : x = l := by
      rw [← hgd, hkj, hl]
    rw [this]
  have hne : lines ≠ [] := by
    intro h
    rw [h] at hj
    exact absurd hj (by simp)
  have htarg : targeted_regen_by_word searches lines (plan_generation env lines).1
      (plan_generation env lines).2.1 =
      targetedRegenGo searches lines (plan_generation env lines).1
        (plan_generation env lines).2.1 := by
    rw [targeted_regen_by_word, if_neg hne]
  obtain ⟨hk1, hr1⟩ := targetedRegenGo_no_strref l.strref l.text searches lines
    (plan_generation env lines).1 (plan_generation env lines).2.1
    hnomatch hlines_text hkeep0 hregen0
  rw [htarg]
  exact ⟨hkeep0, hregen0, hk1, hr1⟩

/-- C5 witness: two existing-asset lines, the first skipped, one search
that matches neither; the skipped strref is absent from all four sets. -/
theorem c5_skip_excluded_unless_searched_witness :
    (∀ x ∈ (plan_generation skipFirstEnv [skipLine, keepLine]).1,
      x.strref ≠ skipLine.strref) ∧
    (∀ x ∈ (plan_generation skipFirstEnv [skipLine, keepLine]).2.1,
      x.strref ≠ skipLine.strref) ∧
    (∀ x ∈ (targeted_regen_by_word
        [{ needle := "zzz", cfgOverride := none, stepsOverride := none }]
        [skipLine, keepLine]
        (plan_generation skipFirstEnv [skipLine, keepLine]).1
        (plan_generation skipFirstEnv [skipLine, keepLine]).2.1).2.1,
      x.strref ≠ skipLine.strref) ∧
    (∀ x ∈ (targeted_regen_by_word
        [{ needle := "zzz", cfgOverride := none, stepsOverride := none }]
        [skipLine, keepLine]
        (plan_generation skipFirstEnv [skipLine, keepLine]).1
        (plan_generation skipFirstEnv [skipLine, keepLine]).2.1).2.2,
      x.strref ≠ skipLine.strref) :=
  c5_skip_excluded_unless_searched skipFirstEnv [skipLine, keepLine]
    [{ needle := "zzz", cfgOverride := none, stepsOverride := none }]
    skipLine 0 (by decide) (by decide) (by decide) (by decide) (by decide)
    (by decide) (by decide) (by decide)

lemma tlkIndex_mem {entries : List (Nat × String)} {sr : Nat} {k : String} :
    sr ∈ tlkIndex entries k ↔
      ∃ t, (sr, t) ∈ entries ∧ normalize_text_for_match t = k := by
  unfold tlkIndex
  constructor
  · intro h
    obtain ⟨e, he, hesr⟩ := List.mem_map.mp h
    have := List.mem_filter.mp he
    refine ⟨e.2, ?_, by simpa using this.2⟩
    rw [← hesr]
    exact this.1
  · intro ⟨t, ht, hnorm⟩
    exact List.mem_map.mpr ⟨(sr, t), List.mem_filter.mpr ⟨ht, by simpa using hnorm⟩, rfl⟩

lemma tlkLookup_mem {entries : List (Nat × String)} {sr : Nat} {t : String}
    (h : tlkLookup entries sr = some t) : (sr, t) ∈ entries := by
  unfold tlkLookup at h
  cases hf : entries.reverse.find? (fun e => decide (e.1 = sr)) with
  | none => rw [hf] at h; exact Option.noConfusion h
  | some e =>
    rw [hf] at h
    have hmem : e ∈ entries.reverse := List.mem_of_find?_eq_some hf
    have hpred := List.find?_some hf
    have he1 : e.1 = sr := of_decide_eq_true hpred
    have he2 : e.2 = t := Option.some.inj h
    have : e = (sr, t) := Prod.ext he1 he2
    rw [← this]
    exact List.mem_reverse.mp hmem

lemma expandInner_extra_mono (env : DupEnv) (line : Line) :
    ∀ (refs : List Nat) (extra : List Line) (seen : List Nat) (x : Line),
      x ∈ extra → x ∈ (expandInner env line refs extra seen).1 := by
  intro refs
  induction refs with
  | nil => intro extra seen x hx; exact hx
  | cons sr rest ih =>
    intro extra seen x hx
    unfold expandInner
    split
    · exact ih extra seen x hx
    · cases hsr : env.soundref sr with
      | some s => exact ih extra seen x hx
      | none =>
        exact ih _ _ x (List.mem_append.mpr (Or.inl hx))

lemma expandInner_seen_new (env : DupEnv) (line : Line) :
    ∀ (refs : List Nat) (extra : List Line) (seen : List Nat) (s : Nat),
      s ∈ (expandInner env line refs extra seen).2 → s ∈ seen ∨ s ∈ refs := by
  intro refs
  induction refs with
  | nil => intro extra seen s hs; exact Or.inl hs
  | cons sr rest ih =>
    intro extra seen s hs
    unfold expandInner at hs
    revert hs
    split
    · intro hs
      rcases ih extra seen s hs with h | h
      · exact Or.inl h
      · exact Or.inr (List.mem_cons_of_mem _ h)
    · cases hsr : env.soundref sr with
      | some s2 =>
        intro hs
        rcases ih extra seen s hs with h | h
        · exact Or.inl h
        · exact Or.inr (List.mem_cons_of_mem _ h)
      | none =>
        intro hs
        rcases ih _ _ s hs with h | h
        · rcases List.mem_cons.mp h with h | h
          · exact Or.inr (by rw [h]; exact List.mem_cons_self _ _)
          · exact Or.inl h
        · exact Or.inr (List.mem_cons_of_mem _ h)

lemma expandInner_clone_mem (env : DupEnv) (line : Line) (b : Nat)
    (hsound : env.soundref b = none) :
    ∀ (refs : List Nat) (extra : List Line) (seen : List Nat),
      b ∈ refs → b ∉ seen →
      cloneOf line b ((tlkLookup env.entries b).getD line.text) ∈
        (expandInner env line refs extra seen).1 := by
  intro refs
  induction refs with
  | nil => intro extra seen hb _; exact absurd hb (List.not_mem_nil b)
  | cons sr rest ih =>
    intro extra seen hb hbseen
    by_cases hsr : sr = b
    · subst hsr
      unfold expandInner
      rw [if_neg hbseen]
      rw [hsound]
      exact expandInner_extra_mono env line rest _ _ _
        (List.mem_append.mpr (Or.inr (List.mem_singleton.mpr rfl)))
    · have hbrest : b ∈ rest := by
        rcases List.mem_cons.mp hb with h | h
        · exact absurd h.symm hsr
        · exact h
      unfold expandInner
      split
      · exact ih extra seen hbrest hbseen
      · cases hsr2 : env.soundref sr with
        | some s => exact ih extra seen hbrest hbseen
        | none =>
          refine ih _ _ hbrest ?_
          intro hmem
          rcases List.mem_cons.mp hmem with h | h
          · exact hsr h.symm
          · exact hbseen h

lemma expandInner_clones_none (env : DupEnv) (line : Line) :
    ∀ (refs : List Nat) (extra : List Line) (seen : List Nat) (c : Line),
      c ∈ (expandInner env line refs extra seen).1 →
      c ∈ extra ∨ env.soundref c.strref = none := by
  intro refs
  induction refs with
  | nil => intro extra seen c hc; exact Or.inl hc
  | cons sr rest ih =>
    intro extra seen c hc
    unfold expandInner at hc
    revert hc
    split
    · intro hc; exact ih extra seen c hc
    · cases hsr : env.soundref sr with
      | some s => intro hc; exact ih extra seen c hc
      | none =>
        intro hc
        rcases ih _ _ c hc with h | h
        · rcases List.mem_append.mp h with h | h
          · exact Or.inl h
          · refine Or.inr ?_
            rw [List.mem_singleton.mp h]
            exact hsr
        · exact Or.inr h

lemma expandOuter_cons (env : DupEnv) (l : Line) (rest : List Line)
    (extra : List Line) (seen : List Nat) :
    expandOuter env (l :: rest) extra seen =
      match tlkLookup env.entries l.strref with
      | none => expandOuter env rest extra seen
      | some t =>
        if t = "" then expandOuter env rest extra seen
        else
          expandOuter env rest
            (expandInner env l (tlkIndex env.entries (normalize_text_for_match t))
              extra seen).1
            (expandInner env l (tlkIndex env.entries (normalize_text_for_match t))
              extra seen).2 := by
  rfl

lemma expandOuter_append (env : DupEnv) :
    ∀ (xs ys : List Line) (extra : List Line) (seen : List Nat),
      expandOuter env (xs ++ ys) extra seen =
        expandOuter env ys (expandOuter env xs extra seen).1
          (expandOuter env xs extra seen).2 := by
  intro xs
  induction xs with
  | nil => intro ys extra seen; rfl
  | cons l rest ih =>
    intro ys extra seen
    rw [List.cons_append, expandOuter_cons, expandOuter_cons]
    cases hl : tlkLookup env.entries l.strref with
    | none => exact ih ys extra seen
    | some t =>
      dsimp only
      by_cases ht : t = ""
      · rw [if_pos ht, if_pos ht]
        exact ih ys extra seen
      · rw [if_neg ht, if_neg ht]
        exact ih ys _ _

lemma expandOuter_extra_mono (env : DupEnv) :
    ∀ (ls : List Line) (extra : List Line) (seen : List Nat) (x : Line),
      x ∈ extra → x ∈ (expandOuter env ls extra seen).1 := by
  intro ls
  induction ls with
  | nil => intro extra seen x hx; exact hx
  | cons l rest ih =>
    intro extra seen x hx
    rw [expandOuter_cons]
    cases hl : tlkLookup env.entries l.strref with
    | none => exact ih extra seen x hx
    | some t =>
      dsimp only
      by_cases ht : t = ""
      · rw [if_pos ht]
        exact ih extra seen x hx
      · rw [if_neg ht]
        exact ih _ _ x (expandInner_extra_mono env l _ extra seen x hx)

lemma expandOuter_clones_none (env : DupEnv) :
    ∀ (ls : List Line) (extra : List Line) (seen : List Nat) (c : Line),
      c ∈ (expandOuter env ls extra seen).1 →
      c ∈ extra ∨ env.soundref c.strref = none := by
  intro ls
  induction ls with
  | nil => intro extra seen c hc; exact Or.inl hc
  | cons l rest ih =>
    intro extra seen c hc
    rw [expandOuter_cons] at hc
    revert hc
    cases hl : tlkLookup env.entries l.strref with
    | none => intro hc; exact ih extra seen c hc
    | some t =>
      dsimp only
      by_cases ht : t = ""
      · rw [if_pos ht]
        intro hc; exact ih extra seen c hc
      · rw [if_neg ht]
        intro hc
        rcases ih _ _ c hc with h | h
        · exact expandInner_clones_none env l _ extra seen c h
        · exact Or.inr h

/-- A strref that appears in the table only under key `K` is never claimed
while processing lines whose table text does not normalize to `K`. -/
lemma expandOuter_seen_avoid (env : DupEnv) (b : Nat) (K : String)
    (honly : ∀ t', (b, t') ∈ env.entries → normalize_text_for_match t' = K) :
    ∀ (ls : List Line) (extra : List Line) (seen : List Nat),
      (∀ l' ∈ ls, ∀ t, tlkLookup env.entries l'.strref = some t → t ≠ "" →
        normalize_text_for_match t ≠ K) →
      b ∉ seen → b ∉ (expandOuter env ls extra seen).2 := by
  intro ls
  induction ls with
  | nil => intro extra seen _ hb; exact hb
  | cons l rest ih =>
    intro extra seen hls hb
    have hrest : ∀ l' ∈ rest, ∀ t, tlkLookup env.entries l'.strref = some t →
        t ≠ "" → normalize_text_for_match t ≠ K :=
      fun l' hl' => hls l' (List.mem_cons_of_mem _ hl')
    rw [expandOuter_cons]
    cases hl : tlkLookup env.entries l.strref with
    | none => exact ih extra seen hrest hb
    | some t =>
      dsimp only
      by_cases hne : t = ""
      · rw [if_pos hne]
        exact ih extra seen hrest hb
      · rw [if_neg hne]
        refine ih _ _ hrest ?_
        intro hmem
        rcases expandInner_seen_new env l _ extra seen b hmem with h | h
        · exact hb h
        · obtain ⟨t2, ht2, hnorm2⟩ := tlkIndex_mem.mp h
          have hKeq : normalize_text_for_match t2 = K := honly t2 ht2
          have : normalize_text_for_match t ≠ K :=
            hls l (List.mem_cons_self _ _) t hl hne
          rw [← hnorm2] at this
          exact this hKeq

/-- C3: duplicate propagation is non-overwriting and adds no synthesis
work.  Let `LA` be the first resolved line whose (non-empty) table text
normalizes to key `K`, and let `b` be a string-reference outside the
resolved set whose table text also normalizes to `K` (and which occurs in
the table only under `K`).  If `b` has no existing-audio reference, the
final set contains a clone for `b` carrying `LA`'s synthesis text and
asset name (the same `resref`, so the same audio file — no separate
synthesis call) and `b`'s own raw text; if `b` has an existing-audio
reference, no record for `b` appears, regardless of `LA`. -/
theorem c3_duplicate_propagation (env : DupEnv) (pre post : List Line) (LA : Line)
    (b : Nat) (tA tB : String)
    (hA_lookup : tlkLookup env.entries LA.strref = some tA)
    (hA_ne : tA ≠ "")
    (hkey : normalize_text_for_match tA = normalize_text_for_match tB)
    (hB_lookup : tlkLookup env.entries b = some tB)
    (hfirst : ∀ l' ∈ pre, ∀ t, tlkLookup env.entries l'.strref = some t → t ≠ "" →
      normalize_text_for_match t ≠ normalize_text_for_match tB)
    (honly : ∀ t', (b, t') ∈ env.entries →
      normalize_text_for_match t' = normalize_text_for_match tB)
    (hnotin : ∀ l' ∈ pre ++ LA :: post, l'.strref ≠ b) :
    (env.soundref b = none →
      ∃ c ∈ expand_duplicates env (pre ++ LA :: post),
        c.strref = b ∧ c.tts_text = LA.tts_text ∧ c.resref = LA.resref ∧
          c.text = tB) ∧
    (∀ s, env.soundref b = some s →
      ∀ c ∈ expand_duplicates env (pre ++ LA :: post), c.strref ≠ b) := by
  have hvne : pre ++ LA :: post ≠ [] := by
    intro h
    obtain ⟨-, h2⟩ := List.append_eq_nil.mp h
    exact List.noConfusion h2
  have hexp : expand_duplicates env (pre ++ LA :: post) =
      (pre ++ LA :: post) ++
        (expandOuter env (pre ++ LA :: post) []
          ((pre ++ LA :: post).map Line.strref)).1 := by
    unfold expand_duplicates
    rw [if_neg hvne]
  constructor
  · intro hbnone
    have hbseen0 : b ∉ (pre ++ LA :: post).map Line.strref := by
      intro hmem
      obtain ⟨l', hl', he⟩ := List.mem_map.mp hmem
      exact hnotin l' hl' he
    have hbpre : b ∉ (expandOuter env pre []
        ((pre ++ LA :: post).map Line.strref)).2 :=
      expandOuter_seen_avoid env b (normalize_text_for_match tB) honly pre []
        ((pre ++ LA :: post).map Line.strref) hfirst hbseen0
    have hbrefs : b ∈ tlkIndex env.entries (normalize_text_for_match tA) := by
      refine tlkIndex_mem.mpr ⟨tB, tlkLookup_mem hB_lookup, hkey.symm⟩
    have hclone : cloneOf LA b ((tlkLookup env.entries b).getD LA.text) ∈
        (expandInner env LA (tlkIndex env.entries (normalize_text_for_match tA))
          (expandOuter env pre [] ((pre ++ LA :: post).map Line.strref)).1
          (expandOuter env pre [] ((pre ++ LA :: post).map Line.strref)).2).1 :=
      expandInner_clone_mem env LA b hbnone _ _ _ hbrefs hbpre
    have hLA : expandOuter env (LA :: post)
        (expandOuter env pre [] ((pre ++ LA :: post).map Line.strref)).1
        (expandOuter env pre [] ((pre ++ LA :: post).map Line.strref)).2 =
        expandOuter env post
          (expandInner env LA (tlkIndex env.entries (normalize_text_for_match tA))
            (expandOuter env pre [] ((pre ++ LA :: post).map Line.strref)).1
            (expandOuter env pre [] ((pre ++ LA :: post).map Line.strref)).2).1
          (expandInner env LA (tlkIndex env.entries (normalize_text_for_match tA))
            (expandOuter env pre [] ((pre ++ LA :: post).map Line.strref)).1
            (expandOuter env pre [] ((pre ++ LA :: post).map Line.strref)).2).2 := by
      rw [expandOuter_cons, hA_lookup]
      dsimp only
      rw [if_neg hA_ne]
    have hmem_final : cloneOf LA b ((tlkLookup env.entries b).getD LA.text) ∈
        (expandOuter env (pre ++ LA :: post) []
          ((pre ++ LA :: post).map Line.strref)).1 := by
      rw [expandOuter_append, hLA]
      exact expandOuter_extra_mono env post _ _ _ hclone
    refine ⟨cloneOf LA b ((tlkLookup env.entries b).getD LA.text), ?_, rfl, rfl, rfl, ?_⟩
    · rw [hexp]
      exact List.mem_append.mpr (Or.inr hmem_final)
    · unfold cloneOf
      rw [hB_lookup]
      rfl
  · intro s hs c hc hcb
    rw [hexp] at hc
    rcases List.mem_append.mp hc with h | h
    · exact hnotin c h hcb
    · rcases expandOuter_clones_none env (pre ++ LA :: post) [] _ c h with h2 | h2
      · exact absurd h2 (List.not_mem_nil c)
      · rw [hcb] at h2
        rw [h2] at hs
        exact Option.noConfusion hs

/-- C3 witness: the spec's scenario — strrefs 1001 and 2002 both hold
`"Wait."`, 1001 is resolved, 2002 is unvoiced; 2002 appears as a clone
sharing 1001's synthesis text and resref.  Both conjuncts of the theorem
are instantiated (the second vacuously, since the oracle returns `none`). -/
theorem c3_duplicate_propagation_witness :
    (({ entries := c3Entries, soundref := fun _ => none } : DupEnv).soundref 2002 =
        none →
      ∃ c ∈ expand_duplicates { entries := c3Entries, soundref := fun _ => none }
          ([] ++ c3LineA :: []),
        c.strref = 2002 ∧ c.tts_text = c3LineA.tts_text ∧
          c.resref = c3LineA.resref ∧ c.text = "\"Wait.\"") ∧
    (∀ s, ({ entries := c3Entries, soundref := fun _ => none } : DupEnv).soundref
        2002 = some s →
      ∀ c ∈ expand_duplicates { entries := c3Entries, soundref := fun _ => none }
          ([] ++ c3LineA :: []), c.strref ≠ 2002) :=
  c3_duplicate_propagation { entries := c3Entries, soundref := fun _ => none }
    [] [] c3LineA 2002 "\"Wait.\"" "\"Wait.\""
    (by decide) (by decide) (by decide) (by decide)
    (by intro l' hl'; exact absurd hl' (List.not_mem_nil l'))
    (by
      intro t' ht'
      simp only [c3Entries, List.mem_cons, List.not_mem_nil, or_false] at ht'
      rcases ht' with h | h
      · have h1 : (2002 : Nat) = 1001 := congrArg Prod.fst h
        exact absurd h1 (by decide)
      · have ht2 : t' = "\"Wait.\"" := congrArg Prod.snd h
        rw [ht2])
    (by decide)

lemma dedupLoop_sublist : ∀ (ls : List Line) (seen : List (Nat × String)),
    (dedupLoop ls seen).Sublist ls := by
  intro ls
  induction ls with
  | nil => intro seen; exact List.Sublist.refl []
  | cons l rest ih =>
    intro seen
    unfold dedupLoop
    split
    · exact (ih seen).cons l
    · exact (ih _).cons₂ l

lemma dedupLoop_keys : ∀ (ls : List Line) (seen : List (Nat × String)),
    ((dedupLoop ls seen).map (fun l => (l.strref, l.resref))).Nodup ∧
    ∀ l ∈ dedupLoop ls seen, (l.strref, l.resref) ∉ seen := by
  intro ls
  induction ls with
  | nil => intro seen; exact ⟨List.nodup_nil, by intro l hl; exact absurd hl (List.not_mem_nil l)⟩
  | cons l rest ih =>
    intro seen
    unfold dedupLoop
    split
    · exact ih seen
    · next hsk =>
      obtain ⟨ihn, ihs⟩ := ih ((l.strref, l.resref) :: seen)
      constructor
      · simp only [List.map_cons, List.nodup_cons]
        refine ⟨?_, ihn⟩
        intro hmem
        obtain ⟨y, hy, he⟩ := List.mem_map.mp hmem
        have := ihs y hy
        rw [he] at this
        exact this (List.mem_cons_self _ _)
      · intro x hx
        rcases List.mem_cons.mp hx with h | h
        · rw [h]; exact hsk
        · intro hmem
          exact ihs x h (List.mem_cons_of_mem _ hmem)

/-- When the asset name is a function of the string-reference (as
`build_resref` makes it within one run), distinct `(strref, resref)` keys
give distinct strrefs. -/
lemma nodup_strref_of_nodup_keys {vp : String} :
    ∀ {ls : List Line},
      (∀ l ∈ ls, l.resref = build_resref vp l.strref) →
      ((ls.map (fun l => (l.strref, l.resref))).Nodup) →
      (ls.map Line.strref).Nodup := by
  intro ls
  induction ls with
  | nil => intro _ _; simp
  | cons l rest ih =>
    intro hres h
    simp only [List.map_cons, List.nodup_cons] at h ⊢
    refine ⟨?_, ih (fun x hx => hres x (List.mem_cons_of_mem _ hx)) h.2⟩
    intro hmem
    obtain ⟨y, hy, he⟩ := List.mem_map.mp hmem
    apply h.1
    refine List.mem_map.mpr ⟨y, hy, ?_⟩
    have h1 : y.resref = build_resref vp y.strref := hres y (List.mem_cons_of_mem _ hy)
    have h0 : l.resref = build_resref vp l.strref := hres l (List.mem_cons_self _ _)
    rw [h1, h0, he]

/-- Members of a strref-nodup list with equal strrefs are equal. -/
lemma strref_eq_of_mem {lines : List Line}
    (LN : (lines.map Line.strref).Nodup) {x y : Line}
    (hx : x ∈ lines) (hy : y ∈ lines) (h : x.strref = y.strref) : x = y := by
  obtain ⟨i, hi⟩ := List.mem_iff_get.mp hx
  obtain ⟨j, hj⟩ := List.mem_iff_get.mp hy
  have hgi : lines.getD i.val defaultLine = x := by
    rw [List.getD_eq_get lines defaultLine i.isLt]; exact hi
  have hgj : lines.getD j.val defaultLine = y := by
    rw [List.getD_eq_get lines defaultLine j.isLt]; exact hj
  have hij : i.val = j.val := by
    apply nodup_map_getD_inj LN i.isLt j.isLt
    rw [hgi, hgj]
    exact h
  rw [← hgi, ← hgj, hij]

/-- Erasing a member from a list whose projections are nodup removes its
projection entirely. -/
lemma nodup_map_erase {f : Line → Nat} {ks : List Line} {l : Line}
    (h : (ks.map f).Nodup) (hl : l ∈ ks) :
    ((ks.erase l).map f).Nodup ∧ f l ∉ (ks.erase l).map f := by
  have hp : ks.Perm (l :: ks.erase l) := List.perm_cons_erase hl
  have hmap : (ks.map f).Perm (f l :: (ks.erase l).map f) := by
    simpa using hp.map f
  have h2 : (f l :: (ks.erase l).map f).Nodup := hmap.nodup_iff.mp h
  exact ⟨(List.nodup_cons.mp h2).2, (List.nodup_cons.mp h2).1⟩

/-- A planning step appends the current line to exactly one of the two
lists, or to neither. -/
lemma planStep_lists_cases (env : PlanEnv) (idx : Nat) (l0 : Line) (st : PlanState) :
    ((planStep env idx l0 st).keep = st.keep ++ [l0] ∧
      (planStep env idx l0 st).regen = st.regen) ∨
    ((planStep env idx l0 st).keep = st.keep ∧
      (planStep env idx l0 st).regen = st.regen ++ [l0]) ∨
    ((planStep env idx l0 st).keep = st.keep ∧
      (planStep env idx l0 st).regen = st.regen) := by
  unfold planStep
  dsimp only
  repeat' split
  all_goals
    first
      | exact Or.inl ⟨rfl, rfl⟩
      | exact Or.inr (Or.inl ⟨rfl, rfl⟩)
      | exact Or.inr (Or.inr ⟨rfl, rfl⟩)

lemma planStep_inv (env : PlanEnv) (idx : Nat) (l0 : Line) (st : PlanState)
    (lines : List Line) (hl0 : l0 ∈ lines)
    (hfK : l0.strref ∉ st.keep.map Line.strref)
    (hfR : l0.strref ∉ st.regen.map Line.strref)
    (hinv : StrrefInv lines st.keep st.regen) :
    StrrefInv lines (planStep env idx l0 st).keep (planStep env idx l0 st).regen := by
  obtain ⟨hks, hrs, hkn, hrn, hx⟩ := hinv
  rcases planStep_lists_cases env idx l0 st with ⟨h1, h2⟩ | ⟨h1, h2⟩ | ⟨h1, h2⟩ <;>
    rw [h1, h2]
  · refine ⟨?_, hrs, ?_, hrn, ?_⟩
    · intro x hxm
      rcases List.mem_append.mp hxm with h | h
      · exact hks x h
      · rw [List.mem_singleton.mp h]; exact hl0
    · rw [List.map_append]
      refine List.Nodup.append hkn (by simp) ?_
      intro a ha hb
      have hb2 : a = l0.strref := by simpa using hb
      rw [hb2] at ha
      exact hfK ha
    · intro x hxm y hym
      rcases List.mem_append.mp hxm with h | h
      · exact hx x h y hym
      · rw [List.mem_singleton.mp h]
        intro he
        exact hfR (List.mem_map.mpr ⟨y, hym, he.symm⟩)
  · refine ⟨hks, ?_, hkn, ?_, ?_⟩
    · intro x hxm
      rcases List.mem_append.mp hxm with h | h
      · exact hrs x h
      · rw [List.mem_singleton.mp h]; exact hl0
    · rw [List.map_append]
      refine List.Nodup.append hrn (by simp) ?_
      intro a ha hb
      have hb2 : a = l0.strref := by simpa using hb
      rw [hb2] at ha
      exact hfR ha
    · intro x hxm y hym
      rcases List.mem_append.mp hym with h | h
      · exact hx x hxm y h
      · rw [List.mem_singleton.mp h]
        intro he
        exact hfK (List.mem_map.mpr ⟨x, hxm, he⟩)
  · exact ⟨hks, hrs, hkn, hrn, hx⟩

lemma planLoop_inv (env : PlanEnv) (lines : List Line) :
    ∀ (ls : List Line) (idx : Nat) (st : PlanState),
      (∀ x ∈ ls, x ∈ lines) → (ls.map Line.strref).Nodup →
      (∀ x ∈ ls, x.strref ∉ st.keep.map Line.strref ∧
        x.strref ∉ st.regen.map Line.strref) →
      StrrefInv lines st.keep st.regen →
      StrrefInv lines (planLoop env idx ls st).keep (planLoop env idx ls st).regen := by
  intro ls
  induction ls with
  | nil => intro idx st _ _ _ hinv; exact hinv
  | cons l0 rest ih =>
    intro idx st hsub hnd hfresh hinv
    have hl0 : l0 ∈ lines := hsub l0 (List.mem_cons_self _ _)
    obtain ⟨hfK, hfR⟩ := hfresh l0 (List.mem_cons_self _ _)
    have hinv1 := planStep_inv env idx l0 st lines hl0 hfK hfR hinv
    have hnd1 : (rest.map Line.strref).Nodup := (List.nodup_cons.mp (by simpa using hnd)).2
    have hhead : l0.strref ∉ rest.map Line.strref :=
      (List.nodup_cons.mp (by simpa using hnd)).1
    refine ih (idx + 1) (planStep env idx l0 st)
      (fun x hx => hsub x (List.mem_cons_of_mem _ hx)) hnd1 ?_ hinv1
    intro x hx
    obtain ⟨hxK, hxR⟩ := hfresh x (List.mem_cons_of_mem _ hx)
    have hxl0 : x.strref ≠ l0.strref := by
      intro he
      exact hhead (by rw [← he]; exact List.mem_map.mpr ⟨x, hx, rfl⟩)
    rcases planStep_lists_cases env idx l0 st with ⟨h1, h2⟩ | ⟨h1, h2⟩ | ⟨h1, h2⟩ <;>
      rw [h1, h2] <;>
      constructor
    · rw [List.map_append]
      intro hmem
      rcases List.mem_append.mp hmem with h | h
      · exact hxK h
      · exact hxl0 (List.mem_singleton.mp (by simpa using h))
    · exact hxR
    · exact hxK
    · rw [List.map_append]
      intro hmem
      rcases List.mem_append.mp hmem with h | h
      · exact hxR h
      · exact hxl0 (List.mem_singleton.mp (by simpa using h))
    · exact hxK
    · exact hxR

lemma plan_generation_inv (env : PlanEnv) (lines : List Line)
    (LN : (lines.map Line.strref).Nodup) :
    StrrefInv lines (plan_generation env lines).1 (plan_generation env lines).2.1 := by
  unfold plan_generation
  split
  · refine ⟨?_, ?_, ?_, ?_, ?_⟩ <;>
      first
        | (intro x hx; exact absurd hx (List.not_mem_nil x))
        | (intro x hx; exact hx)
        | exact List.nodup_nil
        | exact LN
  · exact planLoop_inv env lines lines 0 _
      (fun x hx => hx) LN
      (by intro x _; exact ⟨by simp, by simp⟩)
      ⟨by intro x hx; exact absurd hx (List.not_mem_nil x),
       by intro x hx; exact absurd hx (List.not_mem_nil x),
       List.nodup_nil, List.nodup_nil,
       by intro x hx; exact absurd hx (List.not_mem_nil x)⟩

/-- Mapping a strref-preserving update over all three lists preserves the
invariant. -/
lemma map_strref_of_preserve {upd : Line → Line}
    (hstr : ∀ l, (upd l).strref = l.strref) (xs : List Line) :
    (xs.map upd).map Line.strref = xs.map Line.strref := by
  rw [List.map_map]
  exact List.map_congr_left (fun a _ => hstr a)

lemma StrrefInv_map {lines keep regen : List Line} {upd : Line → Line}
    (hstr : ∀ l, (upd l).strref = l.strref)
    (hinv : StrrefInv lines keep regen) :
    StrrefInv (lines.map upd) (keep.map upd) (regen.map upd) := by
  obtain ⟨hks, hrs, hkn, hrn, hx⟩ := hinv
  refine ⟨?_, ?_, ?_, ?_, ?_⟩
  · intro x hxm
    obtain ⟨y, hy, hxy⟩ := List.mem_map.mp hxm
    exact List.mem_map.mpr ⟨y, hks y hy, hxy⟩
  · intro x hxm
    obtain ⟨y, hy, hxy⟩ := List.mem_map.mp hxm
    exact List.mem_map.mpr ⟨y, hrs y hy, hxy⟩
  · rw [map_strref_of_preserve hstr]; exact hkn
  · rw [map_strref_of_preserve hstr]; exact hrn
  · intro x hxm y hym
    obtain ⟨a, ha, hax⟩ := List.mem_map.mp hxm
    obtain ⟨b, hb, hby⟩ := List.mem_map.mp hym
    rw [← hax, ← hby, hstr a, hstr b]
    exact hx a ha b hb

lemma targetedMatchLoop_inv (needle : List Char) (lines : List Line)
    (LN : (lines.map Line.strref).Nodup) :
    ∀ (ls keep regen : List Line),
      (∀ x ∈ ls, x ∈ lines) →
      StrrefInv lines keep regen →
      StrrefInv lines (targetedMatchLoop needle ls keep regen).2.1
        (targetedMatchLoop needle ls keep regen).2.2 := by
  intro ls
  induction ls with
  | nil => intro keep regen _ hinv; exact hinv
  | cons l0 rest ih =>
    intro keep regen hsub hinv
    obtain ⟨hks, hrs, hkn, hrn, hx⟩ := hinv
    have hl0 : l0 ∈ lines := hsub l0 (List.mem_cons_self _ _)
    have hsub1 : ∀ x ∈ rest, x ∈ lines := fun x hx2 => hsub x (List.mem_cons_of_mem _ hx2)
    by_cases hmatch : lineMatches needle l0
    · have hinv1 : StrrefInv lines
          (if l0 ∈ keep then keep.erase l0 else keep)
          (if l0 ∈ regen then regen else regen ++ [l0]) := by
        have hks1 : ∀ x ∈ (if l0 ∈ keep then keep.erase l0 else keep), x ∈ lines := by
          split
          · intro x hx2; exact hks x (List.erase_subset _ _ hx2)
          · exact hks
        have hkn1 : ((if l0 ∈ keep then keep.erase l0 else keep).map Line.strref).Nodup := by
          split
          · next hmem => exact (nodup_map_erase hkn hmem).1
          · exact hkn
        have hrs1 : ∀ x ∈ (if l0 ∈ regen then regen else regen ++ [l0]), x ∈ lines := by
          split
          · exact hrs
          · intro x hx2
            rcases List.mem_append.mp hx2 with h | h
            · exact hrs x h
            · rw [List.mem_singleton.mp h]; exact hl0
        have hrn1 : ((if l0 ∈ regen then regen else regen ++ [l0]).map Line.strref).Nodup := by
          split
          · exact hrn
          · next hnot =>
            rw [List.map_append]
            refine List.Nodup.append hrn (by simp) ?_
            intro a ha hb
            have hb2 : a = l0.strref := by simpa using hb
            rw [hb2] at ha
            obtain ⟨y, hy, he⟩ := List.mem_map.mp ha
            have : y = l0 := strref_eq_of_mem LN (hrs y hy) hl0 he
            rw [this] at hy
            exact hnot hy
        refine ⟨hks1, hrs1, hkn1, hrn1, ?_⟩
        intro x hxm y hym
        rcases (by
            revert hym
            split
            · intro hym; exact Or.inl hym
            · intro hym
              rcases List.mem_append.mp hym with h | h
              · exact Or.inl h
              · exact Or.inr (List.mem_singleton.mp h) :
            y ∈ regen ∨ y = l0) with hy | hy
        · have hxk : x ∈ keep := by
            revert hxm
            split
            · intro hxm; exact List.erase_subset _ _ hxm
            · intro hxm; exact hxm
          exact hx x hxk y hy
        · rw [hy]
          revert hxm
          split
          · next hmem =>
            intro hxm he
            exact (nodup_map_erase hkn hmem).2 (List.mem_map.mpr ⟨x, hxm, he⟩)
          · next hnot =>
            intro hxm he
            have : x = l0 := strref_eq_of_mem LN (hks x hxm) hl0 he
            rw [this] at hxm
            exact hnot hxm
      have := ih (if l0 ∈ keep then keep.erase l0 else keep)
        (if l0 ∈ regen then regen else regen ++ [l0]) hsub1 hinv1
      simpa [targetedMatchLoop, hmatch] using this
    · have := ih keep regen hsub1 ⟨hks, hrs, hkn, hrn, hx⟩
      simpa [targetedMatchLoop, hmatch] using this

lemma targetedRegenGo_inv :
    ∀ (searches : List SearchSpec) (lines keep regen : List Line),
      (lines.map Line.strref).Nodup →
      StrrefInv lines keep regen →
      StrrefInv (targetedRegenGo searches lines keep regen).1
        (targetedRegenGo searches lines keep regen).2.1
        (targetedRegenGo searches lines keep regen).2.2 := by
  intro searches
  induction searches with
  | nil => intro lines keep regen _ hinv; exact hinv
  | cons sp rest ih =>
    intro lines keep regen LN hinv
    have hloop := targetedMatchLoop_inv (lowerChars sp.needle) lines LN
      lines keep regen (fun x hx => hx) hinv
    simp only [targetedRegenGo, targetedApplySearch]
    split
    · exact ih lines
        (targetedMatchLoop (lowerChars sp.needle) lines keep regen).2.1
        (targetedMatchLoop (lowerChars sp.needle) lines keep regen).2.2
        LN hloop
    · set upd := fun l =>
        if l ∈ (targetedMatchLoop (lowerChars sp.needle) lines keep regen).1 then
          applyOverrides sp.cfgOverride sp.stepsOverride l
        else l with hupd
      have hstr : ∀ l, (upd l).strref = l.strref := by
        intro l
        rw [hupd]
        dsimp only
        split
        · exact applyOverrides_strref _ _ _
        · rfl
      refine ih (lines.map upd)
        ((targetedMatchLoop (lowerChars sp.needle) lines keep regen).2.1.map upd)
        ((targetedMatchLoop (lowerChars sp.needle) lines keep regen).2.2.map upd)
        ?_ (StrrefInv_map hstr hloop)
      rw [map_strref_of_preserve hstr]
      exact LN

/-- The clone accumulator of the inner loop keeps pairwise-distinct
strrefs, all claimed in `seen`, and never one from the initially claimed
set `seen0`. -/
lemma expandInner_extra_inv (env : DupEnv) (line : Line) (seen0 : List Nat) :
    ∀ (refs : List Nat) (extra : List Line) (seen : List Nat),
      (extra.map Line.strref).Nodup →
      (∀ c ∈ extra, c.strref ∈ seen) →
      (∀ s ∈ seen0, s ∈ seen) →
      (∀ c ∈ extra, c.strref ∉ seen0) →
      ((expandInner env line refs extra seen).1.map Line.strref).Nodup ∧
      (∀ c ∈ (expandInner env line refs extra seen).1,
        c.strref ∈ (expandInner env line refs extra seen).2) ∧
      (∀ s ∈ seen0, s ∈ (expandInner env line refs extra seen).2) ∧
      (∀ c ∈ (expandInner env line refs extra seen).1, c.strref ∉ seen0) := by
  intro refs
  induction refs with
  | nil => intro extra seen h1 h2 h3 h4; exact ⟨h1, h2, h3, h4⟩
  | cons sr rest ih =>
    intro extra seen h1 h2 h3 h4
    unfold expandInner
    split
    · exact ih extra seen h1 h2 h3 h4
    · next hskip =>
      cases hsr : env.soundref sr with
      | some s => exact ih extra seen h1 h2 h3 h4
      | none =>
        refine ih _ _ ?_ ?_ ?_ ?_
        · rw [List.map_append]
          refine List.Nodup.append h1 (by simp) ?_
          intro a ha hb
          have hb2 : a = sr := by simpa [cloneOf] using hb
          rw [hb2] at ha
          obtain ⟨c, hc, he⟩ := List.mem_map.mp ha
          exact hskip (by rw [← he]; exact h2 c hc)
        · intro c hc
          rcases List.mem_append.mp hc with h | h
          · exact List.mem_cons_of_mem _ (h2 c h)
          · rw [List.mem_singleton.mp h]
            exact List.mem_cons_self _ _
        · intro s hs
          exact List.mem_cons_of_mem _ (h3 s hs)
        · intro c hc
          rcases List.mem_append.mp hc with h | h
          · exact h4 c h
          · rw [List.mem_singleton.mp h]
            intro hmem
            exact hskip (h3 sr hmem)

lemma expandOuter_extra_inv (env : DupEnv) (seen0 : List Nat) :
    ∀ (ls : List Line) (extra : List Line) (seen : List Nat),
      (extra.map Line.strref).Nodup →
      (∀ c ∈ extra, c.strref ∈ seen) →
      (∀ s ∈ seen0, s ∈ seen) →
      (∀ c ∈ extra, c.strref ∉ seen0) →
      ((expandOuter env ls extra seen).1.map Line.strref).Nodup ∧
      (∀ c ∈ (expandOuter env ls extra seen).1, c.strref ∉ seen0) := by
  intro ls
  induction ls with
  | nil => intro extra seen h1 _ _ h4; exact ⟨h1, h4⟩
  | cons l rest ih =>
    intro extra seen h1 h2 h3 h4
    rw [expandOuter_cons]
    cases hl : tlkLookup env.entries l.strref with
    | none => exact ih extra seen h1 h2 h3 h4
    | some t =>
      dsimp only
      by_cases ht : t = ""
      · rw [if_pos ht]
        exact ih extra seen h1 h2 h3 h4
      · rw [if_neg ht]
        obtain ⟨g1, g2, g3, g4⟩ := expandInner_extra_inv env l seen0
          (tlkIndex env.entries (normalize_text_for_match t)) extra seen h1 h2 h3 h4
        exact ih _ _ g1 g2 g3 g4

lemma expand_duplicates_strref_nodup (env : DupEnv) (voiced : List Line)
    (h : (voiced.map Line.strref).Nodup) :
    ((expand_duplicates env voiced).map Line.strref).Nodup := by
  by_cases hv : voiced = []
  · rw [hv]
    simp [expand_duplicates]
  · have hexp : expand_duplicates env voiced =
        voiced ++ (expandOuter env voiced [] (voiced.map Line.strref)).1 := by
      unfold expand_duplicates
      rw [if_neg hv]
    rw [hexp, List.map_append]
    obtain ⟨g1, g4⟩ := expandOuter_extra_inv env (voiced.map Line.strref) voiced []
      (voiced.map Line.strref) List.nodup_nil
      (by intro c hc; exact absurd hc (List.not_mem_nil c))
      (fun s hs => hs)
      (by intro c hc; exact absurd hc (List.not_mem_nil c))
    refine List.Nodup.append h g1 ?_
    intro a ha hb
    obtain ⟨c, hc, he⟩ := List.mem_map.mp hb
    rw [← he] at ha
    exact g4 c hc ha

/-- The kept set concatenated with the three role categories of the
regenerate set has pairwise-distinct strrefs whenever the two sets do and
are strref-disjoint. -/
lemma keep_partition_nodup (keep regen : List Line) (narrE : Bool)
    (hkn : (keep.map Line.strref).Nodup) (hrn : (regen.map Line.strref).Nodup)
    (hx : ∀ x ∈ keep, ∀ y ∈ regen, x.strref ≠ y.strref) :
    ((keep ++
      (if narrE then classify_narrator_only_lines regen else ([], regen, [])).1 ++
      (if narrE then classify_narrator_only_lines regen else ([], regen, [])).2.1 ++
      (if narrE then classify_narrator_only_lines regen else ([], regen, [])).2.2).map
        Line.strref).Nodup := by
  have hdisj : (keep.map Line.strref).Disjoint (regen.map Line.strref) := by
    intro a ha hb
    obtain ⟨x, hxk, hex⟩ := List.mem_map.mp ha
    obtain ⟨y, hyk, hey⟩ := List.mem_map.mp hb
    exact hx x hxk y hyk (by rw [hex, hey])
  have hkr : ((keep ++ regen).map Line.strref).Nodup := by
    rw [List.map_append]
    exact List.Nodup.append hkn hrn hdisj
  cases narrE with
  | false =>
    simp only [if_false, Bool.false_eq_true]
    simpa using hkr
  | true =>
    simp only [if_true]
    have hp := classifyFilters_perm regen
    have hperm0 : (keep ++ ((classify_narrator_only_lines regen).1 ++
        ((classify_narrator_only_lines regen).2.1 ++
          (classify_narrator_only_lines regen).2.2))).Perm (keep ++ regen) := by
      refine List.Perm.append_left keep ?_
      simpa [List.append_assoc] using hp
    have heq : keep ++ (classify_narrator_only_lines regen).1 ++
        (classify_narrator_only_lines regen).2.1 ++
        (classify_narrator_only_lines regen).2.2 =
        keep ++ ((classify_narrator_only_lines regen).1 ++
          ((classify_narrator_only_lines regen).2.1 ++
            (classify_narrator_only_lines regen).2.2)) := by
      simp [List.append_assoc]
    rw [heq]
    exact (hperm0.map Line.strref).nodup_iff.mpr hkr

/-- C2: the final collection of voiced lines handed to manifest emission —
the per-variant dedup of `run_for_dlg`, through planning, the targeted
pass, role classification and `expand_duplicates` — carries pairwise
distinct string-references, provided every input line's asset name is the
one `build_resref` derives from its strref (as `build_lines` guarantees
within one run). -/
theorem c2_final_strrefs_distinct (env : RunEnv) (vp : String)
    (all_lines : List Line)
    (hres : ∀ l ∈ all_lines, l.resref = build_resref vp l.strref) :
    ((pipelineVoicedLines env all_lines).map Line.strref).Nodup := by
  have hsub : ∀ l ∈ dedupByStrrefResref all_lines, l ∈ all_lines :=
    fun l hl => (dedupLoop_sublist all_lines []).subset hl
  have LN : ((dedupByStrrefResref all_lines).map Line.strref).Nodup :=
    nodup_strref_of_nodup_keys (fun l hl => hres l (hsub l hl))
      (dedupLoop_keys all_lines []).1
  have hplan := plan_generation_inv env.planEnv (dedupByStrrefResref all_lines) LN
  unfold pipelineVoicedLines targeted_regen_by_word
  dsimp only
  by_cases hlines0 : dedupByStrrefResref all_lines = []
  · rw [if_pos hlines0]
    obtain ⟨-, -, hkn, hrn, hx⟩ := hplan
    have hbase := keep_partition_nodup
      (plan_generation env.planEnv (dedupByStrrefResref all_lines)).1
      (plan_generation env.planEnv (dedupByStrrefResref all_lines)).2.1
      env.narrEnabled hkn hrn hx
    split
    · exact expand_duplicates_strref_nodup env.dupEnv _ hbase
    · exact hbase
  · rw [if_neg hlines0]
    obtain ⟨-, -, hkn, hrn, hx⟩ := targetedRegenGo_inv env.searches
      (dedupByStrrefResref all_lines)
      (plan_generation env.planEnv (dedupByStrrefResref all_lines)).1
      (plan_generation env.planEnv (dedupByStrrefResref all_lines)).2.1
      LN hplan
    have hbase := keep_partition_nodup
      (targetedRegenGo env.searches (dedupByStrrefResref all_lines)
        (plan_generation env.planEnv (dedupByStrrefResref all_lines)).1
        (plan_generation env.planEnv (dedupByStrrefResref all_lines)).2.1).2.1
      (targetedRegenGo env.searches (dedupByStrrefResref all_lines)
        (plan_generation env.planEnv (dedupByStrrefResref all_lines)).1
        (plan_generation env.planEnv (dedupByStrrefResref all_lines)).2.1).2.2
      env.narrEnabled hkn hrn hx
    split
    · exact expand_duplicates_strref_nodup env.dupEnv _ hbase
    · exact hbase

/-- C2 witness: three concrete lines (one strref repeated across variants)
run through the pipeline with TLK dedup enabled; the conclusion follows by
applying the theorem at this input. -/
theorem c2_final_strrefs_distinct_witness :
    (∀ l ∈ c2Input, l.resref = build_resref "AB" l.strref) ∧
    ((pipelineVoicedLines c2Env c2Input).map Line.strref).Nodup :=
  ⟨by decide, c2_final_strrefs_distinct c2Env "AB" c2Input (by decide)⟩

end AutoVO
